import Mathlib

/-!
Verification of the flattened COO sparse matrix-vector multiply of cusplibrary
(src/cusp/device/spmv_coo_flat.h).

Shallow embedding conventions:
* Row and column indices are modelled as integers (the C++ IndexType, which must
  hold the sentinel value -1 used by the level-2 reduction kernel).
* Matrix values and vector entries are modelled as integers; exact integer
  arithmetic stands in for floating point, so reassociating a summation is
  value-preserving, which is exactly the "equal up to summation-order tolerance"
  reading of the specification.
* Device arrays are total functions from Nat (positions) or Int (row/column
  indices); an in-place "y[r] += v" becomes the functional update accum.
* A CUDA warp executes its 32 lanes in lockstep.  A statement executed by all
  lanes at once is modelled as a simultaneous (pure) array transformation; the
  distinct lanes of one simultaneous write step touch distinct rows for
  row-sorted input, and are serialised in lane order in the model.  Independent
  warps only ever accumulate into y, so serialising warps in warp-id order is
  value-faithful as well.
-/

namespace CuspCoo

def WARP_SIZE : Nat := 32

/-- Modelled from the spec: the DIVIDE_INTO macro of cusp/device/utils.h (a file
not present in src/), which the spec describes as ceiling division
(iters = ceil(num_units / active_units)). -/
def DIVIDE_INTO (x y : Nat) : Nat := (x + y - 1) / y

/-- The in-place accumulation "y[r] += v" of the kernels, as a functional update. -/
def accum (y : Int → Int) (r : Int) (v : Int) : Int → Int :=
  fun i => if i = r then y i + v else y i

/-- A single pending accumulation (row, value) as a function that is v at r and 0
elsewhere. -/
def csingle (r : Int) (v : Int) : Int → Int :=
  fun i => if i = r then v else 0

/-- Apply a list of accumulation events (row, value) to y, in order. -/
def applyWrites (y : Int → Int) (l : List (Int × Int)) : Int → Int :=
  l.foldl (fun y e => accum y e.1 e.2) y

/-- Total mass a list of accumulation events deposits at row r. -/
def sumAt (l : List (Int × Int)) (r : Int) : Int :=
  (l.map (fun e => if e.1 = r then e.2 else 0)).sum

theorem sumAt_nil (r : Int) : sumAt [] r = 0 := rfl

theorem sumAt_cons (e : Int × Int) (l : List (Int × Int)) (r : Int) :
    sumAt (e :: l) r = (if e.1 = r then e.2 else 0) + sumAt l r := rfl

theorem sumAt_append (l₁ l₂ : List (Int × Int)) (r : Int) :
    sumAt (l₁ ++ l₂) r = sumAt l₁ r + sumAt l₂ r := by
  simp [sumAt]

theorem applyWrites_nil (y : Int → Int) : applyWrites y [] = y := rfl

theorem applyWrites_cons (y : Int → Int) (e : Int × Int) (l : List (Int × Int)) :
    applyWrites y (e :: l) = applyWrites (accum y e.1 e.2) l := rfl

theorem applyWrites_append (y : Int → Int) (l₁ l₂ : List (Int × Int)) :
    applyWrites y (l₁ ++ l₂) = applyWrites (applyWrites y l₁) l₂ := by
  simp [applyWrites]

/-- The result of applying accumulation events is the initial value plus the
deposited mass; in particular it does not depend on the order of the events. -/
theorem applyWrites_eq (y : Int → Int) (l : List (Int × Int)) (r : Int) :
    applyWrites y l r = y r + sumAt l r := by
  induction l generalizing y with
  | nil => simp [applyWrites, sumAt]
  | cons e l ih =>
      rw [applyWrites_cons, sumAt_cons, ih]
      simp only [accum]
      by_cases h : r = e.1
      · subst h; simp [eq_comm, add_assoc]
      · have h' : ¬ e.1 = r := fun hh => h hh.symm
        simp [h, h']

/-! ## Runs of equal values and their start positions

segStart idx t is the first position of the maximal contiguous run of positions
with value idx t that ends at t.  This is the data-dependent segment boundary of
the segmented reduction. -/

def segStart (idx : Nat → Int) : Nat → Nat
  | 0 => 0
  | t + 1 => if idx (t + 1) = idx t then segStart idx t else t + 1

theorem segStart_succ (idx : Nat → Int) (t : Nat) :
    segStart idx (t + 1) = if idx (t + 1) = idx t then segStart idx t else t + 1 := rfl

theorem segStart_le (idx : Nat → Int) (t : Nat) : segStart idx t ≤ t := by
  induction t with
  | zero => exact Nat.le_refl 0
  | succ t ih =>
      rw [segStart_succ]
      by_cases h : idx (t + 1) = idx t
      · simp only [h, if_true]; omega
      · simp [h]

theorem segStart_mem (idx : Nat → Int) (t j : Nat)
    (h₁ : segStart idx t ≤ j) (h₂ : j ≤ t) : idx j = idx t := by
  induction t with
  | zero =>
      have : j = 0 := by omega
      subst this; rfl
  | succ t ih =>
      rw [segStart_succ] at h₁
      by_cases h : idx (t + 1) = idx t
      · simp only [h, if_true] at h₁
        rcases Nat.lt_or_ge j (t + 1) with hj | hj
        · have := ih h₁ (by omega)
          rw [this, h]
        · have : j = t + 1 := by omega
          subst this; rfl
      · simp only [h, if_false] at h₁
        have : j = t + 1 := by omega
        subst this; rfl

theorem segStart_break (idx : Nat → Int) (t : Nat) (h : 0 < segStart idx t) :
    idx (segStart idx t - 1) ≠ idx t := by
  induction t with
  | zero => simp [segStart] at h
  | succ t ih =>
      rw [segStart_succ] at h ⊢
      by_cases hc : idx (t + 1) = idx t
      · simp only [hc, if_true] at h ⊢
        exact ih h
      · simp only [hc, if_false] at h ⊢
        intro hcontra
        exact hc hcontra.symm

/-- segStart is characterised by: it is below t, the run from it to t is
constant, and it is either 0 or preceded by a different value. -/
theorem segStart_eq_of (idx : Nat → Int) (t s : Nat)
    (hle : s ≤ t)
    (hrun : ∀ j, s ≤ j → j ≤ t → idx j = idx t)
    (hbrk : s = 0 ∨ idx (s - 1) ≠ idx t) :
    segStart idx t = s := by
  rcases Nat.lt_trichotomy (segStart idx t) s with h | h | h
  · -- segStart < s : then s > 0 and idx (s-1) = idx t by segStart_mem
    exfalso
    have hs0 : 0 < s := by omega
    rcases hbrk with h0 | hb
    · omega
    · exact hb (segStart_mem idx t (s - 1) (by omega) (by omega))
  · exact h
  · -- s < segStart : then segStart > 0 and run gives idx (segStart - 1) = idx t
    exfalso
    have h0 : 0 < segStart idx t := by omega
    exact segStart_break idx t h0
      (hrun (segStart idx t - 1) (by omega) (by have := segStart_le idx t; omega))

/-- If two adjacent positions hold the same value they lie in the same run. -/
theorem segStart_succ_eq (idx : Nat → Int) (t : Nat) (h : idx (t + 1) = idx t) :
    segStart idx (t + 1) = segStart idx t := by
  rw [segStart_succ]; simp [h]

/-- A constant stretch of positions shares one run start. -/
theorem segStart_add_of_const (idx : Nat → Int) (q k : Nat)
    (h : ∀ j, j < k → idx (q + j) = idx (q + j + 1)) :
    segStart idx (q + k) = segStart idx q := by
  induction k with
  | zero => rfl
  | succ k ih =>
      have hk : idx (q + k + 1) = idx (q + k) := (h k (by omega)).symm
      have : segStart idx (q + k + 1) = segStart idx (q + k) :=
        segStart_succ_eq idx (q + k) hk
      rw [show q + (k + 1) = q + k + 1 from rfl, this]
      exact ih (fun j hj => h j (by omega))

/-- Equal-value classes form intervals: used for sorted data and for sorted data
padded with a sentinel that collides with no genuine value. -/
def RunsOn (idx : Nat → Int) (N : Nat) : Prop :=
  ∀ a b c, a ≤ b → b ≤ c → c < N → idx a = idx c → idx b = idx c

theorem runsOn_of_monotone (idx : Nat → Int) (N : Nat)
    (h : ∀ a b, a ≤ b → b < N → idx a ≤ idx b) : RunsOn idx N := by
  intro a b c hab hbc hcN hac
  have h₁ : idx a ≤ idx b := h a b hab (by omega)
  have h₂ : idx b ≤ idx c := h b c hbc hcN
  omega

/-- Under the interval property, everything at or after the run start and equal
in value is exactly the run. -/
theorem segStart_le_of_eq (idx : Nat → Int) (N : Nat) (hr : RunsOn idx N)
    (t j : Nat) (ht : t < N) (hj : j ≤ t) (he : idx j = idx t) :
    segStart idx t ≤ j := by
  by_contra hlt
  push_neg at hlt
  have hs0 : 0 < segStart idx t := by omega
  have hmid : idx (segStart idx t - 1) = idx t :=
    hr j (segStart idx t - 1) t (by omega) (by have := segStart_le idx t; omega) ht he
  exact segStart_break idx t hs0 hmid

theorem segStart_eq_of_eq (idx : Nat → Int) (N : Nat) (hr : RunsOn idx N)
    (a b : Nat) (hab : a ≤ b) (hb : b < N) (he : idx a = idx b) :
    segStart idx a = segStart idx b := by
  have h₁ : segStart idx b ≤ a := segStart_le_of_eq idx N hr b a hb hab he
  -- every j in [segStart b, a] equals idx b hence idx a
  apply segStart_eq_of
  · exact h₁
  · intro j hj₁ hj₂
    have : idx j = idx b := segStart_mem idx b j hj₁ (by omega)
    rw [this, he]
  · rcases Nat.eq_zero_or_pos (segStart idx b) with h0 | hpos
    · exact Or.inl h0
    · right
      intro hcontra
      exact segStart_break idx b hpos (by rw [hcontra, he])

/-! ## The doubling-distance segmented scan

One round at distance d is a simultaneous transformation: every lane t reads the
previous round's values and adds the value held d positions earlier iff the row
indices agree.  In segreduce_block the explicit __syncthreads barriers separate
the read of val[threadIdx.x - d] from the write of val[threadIdx.x]; in
segreduce_warp the lockstep execution of the 32 lanes of a warp gives the same
read-then-write semantics (the spec's "synchronization barrier between
distances"). -/

def segredStep (d : Nat) (idx val : Nat → Int) : Nat → Int :=
  fun t => if d ≤ t ∧ idx (t - d) = idx t then val t + val (t - d) else val t

/-- Round at distance d guarded by the within-warp lane index
thread_lane = threadIdx.x & (WARP_SIZE-1), i.e. t % 32. -/
def warpStep (d : Nat) (idx val : Nat → Int) : Nat → Int :=
  fun t => if d ≤ t % 32 ∧ idx (t - d) = idx t then val t + val (t - d) else val t

/-- segreduce_warp: rounds at distances 1, 2, 4, 8, 16, guarded by the lane
index within the warp. -/
def segreduce_warp (idx val : Nat → Int) : Nat → Int :=
  warpStep 16 idx (warpStep 8 idx (warpStep 4 idx (warpStep 2 idx (warpStep 1 idx val))))

/-- segreduce_block: rounds at distances 1, 2, ..., 256, guarded by threadIdx.x
itself. -/
def segreduce_block (idx val : Nat → Int) : Nat → Int :=
  segredStep 256 idx (segredStep 128 idx (segredStep 64 idx (segredStep 32 idx
    (segredStep 16 idx (segredStep 8 idx (segredStep 4 idx (segredStep 2 idx
      (segredStep 1 idx val))))))))

/-- Rounds at distances 2^0, ..., 2^(k-1), innermost first. -/
def segredRounds (idx : Nat → Int) : Nat → (Nat → Int) → (Nat → Int)
  | 0, val => val
  | k + 1, val => segredStep (2 ^ k) idx (segredRounds idx k val)

theorem segreduce_block_eq (idx val : Nat → Int) :
    segreduce_block idx val = segredRounds idx 9 val := by
  show _ = segredStep (2 ^ 8) idx (segredStep (2 ^ 7) idx (segredStep (2 ^ 6) idx
    (segredStep (2 ^ 5) idx (segredStep (2 ^ 4) idx (segredStep (2 ^ 3) idx
      (segredStep (2 ^ 2) idx (segredStep (2 ^ 1) idx (segredStep (2 ^ 0) idx val))))))))
  norm_num [segreduce_block]

theorem warpStep_agree (d : Nat) (idx v₁ v₂ : Nat → Int)
    (h : ∀ t, t < 32 → v₁ t = v₂ t) :
    ∀ t, t < 32 → warpStep d idx v₁ t = segredStep d idx v₂ t := by
  intro t ht
  have hmod : t % 32 = t := Nat.mod_eq_of_lt ht
  simp only [warpStep, segredStep, hmod]
  by_cases hc : d ≤ t ∧ idx (t - d) = idx t
  · rw [if_pos hc, if_pos hc, h t ht, h (t - d) (by omega)]
  · rw [if_neg hc, if_neg hc, h t ht]

/-- Within the 32 lanes of one warp, segreduce_warp computes the same values as
the unguarded rounds at distances 1..16. -/
theorem segreduce_warp_eq (idx val : Nat → Int) :
    ∀ t, t < 32 → segreduce_warp idx val t = segredRounds idx 5 val t := by
  have hch : segredRounds idx 5 val = segredStep (2 ^ 4) idx (segredStep (2 ^ 3) idx
      (segredStep (2 ^ 2) idx (segredStep (2 ^ 1) idx (segredStep (2 ^ 0) idx val)))) := rfl
  have h1 := warpStep_agree 1 idx val val (fun _ _ => rfl)
  have h2 := warpStep_agree 2 idx _ _ h1
  have h4 := warpStep_agree 4 idx _ _ h2
  have h8 := warpStep_agree 8 idx _ _ h4
  have h16 := warpStep_agree 16 idx _ _ h8
  intro t ht
  rw [hch]
  norm_num
  exact h16 t ht

/-- Window invariant of the doubling rounds: after rounds 1..2^(k-1), a lane
holds the sum of the original values over the part of its run that lies within
the last 2^k positions. -/
theorem segredRounds_window (idx val : Nat → Int) (N : Nat) (hr : RunsOn idx N) (k : Nat) :
    ∀ t, t < N → segredRounds idx k val t =
      ∑ j ∈ Finset.Ico (max (segStart idx t) (t + 1 - 2 ^ k)) (t + 1), val j := by
  induction k with
  | zero =>
      intro t ht
      have hs := segStart_le idx t
      have : max (segStart idx t) (t + 1 - 2 ^ 0) = t := by simp; omega
      rw [this]
      simp [segredRounds, Finset.sum_Ico_eq_sum_range]
  | succ k ih =>
      intro t ht
      set d := 2 ^ k with hd
      have hdpos : 0 < d := Nat.pos_pow_of_pos k (by norm_num)
      have hdd : 2 ^ (k + 1) = d + d := by rw [hd, pow_succ]; ring
      show segredStep d idx (segredRounds idx k val) t = _
      unfold segredStep
      by_cases hc : d ≤ t ∧ idx (t - d) = idx t
      · rw [if_pos hc]
        obtain ⟨hdt, heq⟩ := hc
        have hsle : segStart idx t ≤ t - d :=
          segStart_le_of_eq idx N hr t (t - d) ht (by omega) heq
        have hseq : segStart idx (t - d) = segStart idx t :=
          segStart_eq_of_eq idx N hr (t - d) t (by omega) ht heq
        rw [ih t ht, ih (t - d) (by omega), hseq]
        set s := segStart idx t with hsdef
        have hmax₁ : max s (t + 1 - d) = t + 1 - d := by omega
        have hmax₂ : max s (t - d + 1 - d) = max s (t + 1 - 2 ^ (k + 1)) := by
          congr 1; omega
        rw [hmax₁, hmax₂]
        have hsplit := Finset.sum_Ico_consecutive val
          (m := max s (t + 1 - 2 ^ (k + 1))) (n := t - d + 1) (k := t + 1)
          (by have := segStart_le idx t; omega) (by omega)
        have harg : t + 1 - d = t - d + 1 := by omega
        rw [harg, ← hsplit]
        ring
      · rw [if_neg hc]
        rw [ih t ht]
        congr 1
        rcases Nat.lt_or_ge t d with htd | htd
        · have h1 : t + 1 - 2 ^ k = 0 := by omega
          have h2 : t + 1 - 2 ^ (k + 1) = 0 := by omega
          rw [h1, h2]
        · have hne : idx (t - d) ≠ idx t := fun h => hc ⟨htd, h⟩
          have hs : t - d < segStart idx t := by
            by_contra hcon
            push_neg at hcon
            exact hne (segStart_mem idx t (t - d) hcon (by omega))
          have h1 : t + 1 - 2 ^ k ≤ segStart idx t := by omega
          have h2 : t + 1 - 2 ^ (k + 1) ≤ segStart idx t := by omega
          rw [Nat.max_eq_left h1, Nat.max_eq_left h2]

/-- Full scan correctness: once the window covers everything, lane t holds the
sum of the original values of its whole run up to and including t. -/
theorem segredRounds_correct (idx val : Nat → Int) (N k : Nat) (hr : RunsOn idx N)
    (hN : N ≤ 2 ^ k) : ∀ t, t < N → segredRounds idx k val t =
      ∑ j ∈ Finset.Ico (segStart idx t) (t + 1), val j := by
  intro t ht
  rw [segredRounds_window idx val N hr k t ht]
  have h0 : t + 1 - 2 ^ k ≤ segStart idx t := by omega
  rw [Nat.max_eq_left h0]

theorem segreduce_warp_correct (idx val : Nat → Int) (hr : RunsOn idx 32)
    (t : Nat) (ht : t < 32) :
    segreduce_warp idx val t = ∑ j ∈ Finset.Ico (segStart idx t) (t + 1), val j := by
  rw [segreduce_warp_eq idx val t ht]
  exact segredRounds_correct idx val 32 5 hr (by norm_num) t ht

theorem segreduce_block_correct (idx val : Nat → Int) (N : Nat) (hr : RunsOn idx N)
    (hN : N ≤ 512) (t : Nat) (ht : t < N) :
    segreduce_block idx val t = ∑ j ∈ Finset.Ico (segStart idx t) (t + 1), val j := by
  rw [segreduce_block_eq]
  exact segredRounds_correct idx val N 9 hr (by omega) t ht

/-! ## Exact accounting of accumulation events

Covers ridx v E C S states that the accumulation events E (row, value pairs)
account for exactly the entry positions S: the k-th event's value is the sum of
v over the k-th cover, every position in that cover has row index equal to the
event's row, the covers are pairwise disjoint and exhaust S.  This is the formal
rendering of "every entry contributes to exactly one accumulation event, none
double-counted, none dropped". -/

def listUnion (C : List (Finset Nat)) : Finset Nat := C.foldr (· ∪ ·) ∅

def Covers (ridx v : Nat → Int) (E : List (Int × Int)) (C : List (Finset Nat))
    (S : Finset Nat) : Prop :=
  E.length = C.length ∧
  C.Pairwise Disjoint ∧
  listUnion C = S ∧
  ∀ k, k < E.length →
    (E.getD k (0, 0)).2 = ∑ j ∈ C.getD k ∅, v j ∧
    ∀ j ∈ C.getD k ∅, ridx j = (E.getD k (0, 0)).1

theorem listUnion_nil : listUnion [] = ∅ := rfl

theorem listUnion_cons (c : Finset Nat) (C : List (Finset Nat)) :
    listUnion (c :: C) = c ∪ listUnion C := rfl

theorem listUnion_append (C₁ C₂ : List (Finset Nat)) :
    listUnion (C₁ ++ C₂) = listUnion C₁ ∪ listUnion C₂ := by
  induction C₁ with
  | nil => simp [listUnion]
  | cons c C ih => simp [listUnion_cons, ih, Finset.union_assoc]

theorem subset_listUnion (C : List (Finset Nat)) (c : Finset Nat) (h : c ∈ C) :
    c ⊆ listUnion C := by
  induction C with
  | nil => cases h
  | cons c' C ih =>
      rw [listUnion_cons]
      rcases List.mem_cons.mp h with h' | h'
      · subst h'; exact Finset.subset_union_left
      · exact (ih h').trans Finset.subset_union_right

theorem disjoint_listUnion_right (a : Finset Nat) (C : List (Finset Nat))
    (h : ∀ b ∈ C, Disjoint a b) : Disjoint a (listUnion C) := by
  induction C with
  | nil => simp [listUnion]
  | cons c C ih =>
      rw [listUnion_cons, Finset.disjoint_union_right]
      exact ⟨h c (List.mem_cons_self c C), ih (fun b hb => h b (List.mem_cons_of_mem c hb))⟩

theorem covers_nil (ridx v : Nat → Int) : Covers ridx v [] [] ∅ := by
  refine ⟨rfl, List.Pairwise.nil, rfl, ?_⟩
  intro k hk; cases hk

theorem covers_singleton (ridx v : Nat → Int) (e : Int × Int) (c : Finset Nat)
    (hval : e.2 = ∑ j ∈ c, v j) (hrow : ∀ j ∈ c, ridx j = e.1) :
    Covers ridx v [e] [c] c := by
  refine ⟨rfl, List.pairwise_singleton _ _, by simp [listUnion], ?_⟩
  intro k hk
  have : k = 0 := by simpa using hk
  subst this
  exact ⟨hval, hrow⟩

theorem covers_append (ridx v : Nat → Int) (E₁ E₂ : List (Int × Int))
    (C₁ C₂ : List (Finset Nat)) (S₁ S₂ : Finset Nat)
    (h₁ : Covers ridx v E₁ C₁ S₁) (h₂ : Covers ridx v E₂ C₂ S₂)
    (hdis : Disjoint S₁ S₂) :
    Covers ridx v (E₁ ++ E₂) (C₁ ++ C₂) (S₁ ∪ S₂) := by
  obtain ⟨hl₁, hp₁, hu₁, hk₁⟩ := h₁
  obtain ⟨hl₂, hp₂, hu₂, hk₂⟩ := h₂
  refine ⟨by simp [hl₁, hl₂], ?_, ?_, ?_⟩
  · rw [List.pairwise_append]
    refine ⟨hp₁, hp₂, ?_⟩
    intro a ha b hb
    have hsa : a ⊆ S₁ := hu₁ ▸ subset_listUnion C₁ a ha
    have hsb : b ⊆ S₂ := hu₂ ▸ subset_listUnion C₂ b hb
    exact Finset.disjoint_of_subset_left hsa (Finset.disjoint_of_subset_right hsb hdis)
  · rw [listUnion_append, hu₁, hu₂]
  · intro k hk
    rw [List.length_append] at hk
    rcases Nat.lt_or_ge k E₁.length with hlt | hge
    · rw [List.getD_append _ _ _ _ hlt, List.getD_append _ _ _ _ (hl₁ ▸ hlt)]
      exact hk₁ k hlt
    · rw [List.getD_append_right _ _ _ _ hge, List.getD_append_right _ _ _ _ (hl₁ ▸ hge), ← hl₁]
      exact hk₂ (k - E₁.length) (by omega)

/-- From exact accounting, the mass a list of events deposits at row r is the
sum of v over the covered positions whose row index is r. -/
theorem covers_sumAt (ridx v : Nat → Int) (E : List (Int × Int))
    (C : List (Finset Nat)) (S : Finset Nat) (h : Covers ridx v E C S) (r : Int) :
    sumAt E r = ∑ j ∈ S, (if ridx j = r then v j else 0) := by
  induction E generalizing C S with
  | nil =>
      obtain ⟨hl, _, hu, _⟩ := h
      have : C = [] := by
        cases C with
        | nil => rfl
        | cons _ _ => simp at hl
      subst this
      rw [← hu, listUnion_nil]
      simp [sumAt]
  | cons e E ih =>
      obtain ⟨hl, hp, hu, hk⟩ := h
      cases C with
      | nil => simp at hl
      | cons c C =>
          rw [← hu, listUnion_cons]
          have hdis : Disjoint c (listUnion C) :=
            disjoint_listUnion_right c C (fun b hb => (List.pairwise_cons.mp hp).1 b hb)
          rw [Finset.sum_union hdis, sumAt_cons]
          have htail : sumAt E r = ∑ j ∈ listUnion C, (if ridx j = r then v j else 0) := by
            refine ih C (listUnion C) ⟨by simpa using hl, (List.pairwise_cons.mp hp).2, rfl, ?_⟩
            intro k hk'
            have := hk (k + 1) (by simpa using Nat.succ_lt_succ hk')
            simpa using this
          rw [htail]
          congr 1
          have h0 := hk 0 (by simp)
          simp only [List.getD_cons_zero] at h0
          obtain ⟨hval, hrow⟩ := h0
          by_cases hr : e.1 = r
          · rw [if_pos hr, hval]
            refine Finset.sum_congr rfl ?_
            intro j hj
            rw [if_pos (by rw [hrow j hj, hr])]
          · rw [if_neg hr]
            symm
            refine Finset.sum_eq_zero ?_
            intro j hj
            rw [if_neg (by rw [hrow j hj]; exact hr)]

theorem listUnion_map_biUnion (C : List (Finset Nat)) (Tc : Nat → Finset Nat) :
    listUnion (C.map (fun c => c.biUnion Tc)) = (listUnion C).biUnion Tc := by
  induction C with
  | nil => simp [listUnion]
  | cons c C ih =>
      rw [List.map_cons, listUnion_cons, listUnion_cons, ih]
      ext x
      simp only [Finset.mem_union, Finset.mem_biUnion]
      constructor
      · rintro (⟨a, ha, hx⟩ | ⟨a, ha, hx⟩)
        · exact ⟨a, Or.inl ha, hx⟩
        · exact ⟨a, Or.inr ha, hx⟩
      · rintro ⟨a, ha | ha, hx⟩
        · exact Or.inl ⟨a, ha, hx⟩
        · exact Or.inr ⟨a, ha, hx⟩

/-- Two-level accounting: if events E account for inner positions S' (with inner
rows/values ridx', v'), and every inner position i itself stands for the entry
positions Tc i (pairwise disjoint, with matching value sums and a constant
entry-row), then E accounts for the union of the Tc i at the entry level. -/
theorem covers_compose (ridx v ridx' v' : Nat → Int) (E : List (Int × Int))
    (C : List (Finset Nat)) (S' : Finset Nat) (Tc : Nat → Finset Nat)
    (h : Covers ridx' v' E C S')
    (hdis : ∀ i₁ ∈ S', ∀ i₂ ∈ S', i₁ ≠ i₂ → Disjoint (Tc i₁) (Tc i₂))
    (hval : ∀ i ∈ S', v' i = ∑ j ∈ Tc i, v j)
    (hrow : ∀ i ∈ S', ∀ j ∈ Tc i, ridx j = ridx' i) :
    Covers ridx v E (C.map (fun c => c.biUnion Tc)) (S'.biUnion Tc) := by
  obtain ⟨hl, hp, hu, hk⟩ := h
  have hsub : ∀ c ∈ C, c ⊆ S' := fun c hc => hu ▸ subset_listUnion C c hc
  refine ⟨by simp [hl], ?_, ?_, ?_⟩
  · rw [List.pairwise_map]
    refine List.Pairwise.imp_of_mem ?_ hp
    intro c₁ c₂ hc₁ hc₂ hd
    rw [Finset.disjoint_left]
    intro x hx₁ hx₂
    rw [Finset.mem_biUnion] at hx₁ hx₂
    obtain ⟨i₁, hi₁, hxi₁⟩ := hx₁
    obtain ⟨i₂, hi₂, hxi₂⟩ := hx₂
    have hne : i₁ ≠ i₂ := by
      intro hcontra; subst hcontra
      exact (Finset.disjoint_left.mp hd) hi₁ hi₂
    exact (Finset.disjoint_left.mp
      (hdis i₁ (hsub c₁ hc₁ hi₁) i₂ (hsub c₂ hc₂ hi₂) hne)) hxi₁ hxi₂
  · rw [listUnion_map_biUnion, hu]
  · intro k hk'
    have hmain := hk k hk'
    have hgd : (C.map (fun c => c.biUnion Tc)).getD k ∅ = (C.getD k ∅).biUnion Tc := by
      rcases Nat.lt_or_ge k C.length with hlt | hge
      · rw [List.getD_eq_getElem _ _ (by simpa using hlt), List.getD_eq_getElem _ _ hlt]
        simp
      · rw [List.getD_eq_default _ _ (by simpa using hge), List.getD_eq_default _ _ hge]
        simp
    rw [hgd]
    have hcs : C.getD k ∅ ⊆ S' := by
      rcases Nat.lt_or_ge k C.length with hlt | hge
      · refine hsub _ ?_
        rw [List.getD_eq_getElem _ _ hlt]
        exact List.getElem_mem _
      · rw [List.getD_eq_default _ _ hge]
        exact Finset.empty_subset _
    constructor
    · rw [hmain.1]
      rw [Finset.sum_biUnion]
      · exact Finset.sum_congr rfl (fun i hi => hval i (hcs hi))
      · intro i₁ hi₁ i₂ hi₂ hne
        exact hdis i₁ (hcs (by simpa using hi₁)) i₂ (hcs (by simpa using hi₂)) hne
    · intro j hj
      rw [Finset.mem_biUnion] at hj
      obtain ⟨i, hi, hji⟩ := hj
      rw [hrow i (hcs hi) j hji, hmain.2 i hi]

theorem covers_drop_last (ridx v : Nat → Int) (E : List (Int × Int))
    (C : List (Finset Nat)) (S : Finset Nat) (ev : Int × Int) (c : Finset Nat)
    (h : Covers ridx v (E ++ [ev]) (C ++ [c]) S) :
    Covers ridx v E C (S \ c) := by
  obtain ⟨hl, hp, hu, hk⟩ := h
  simp only [List.length_append, List.length_singleton] at hl
  have hl' : E.length = C.length := by omega
  have hp' := (List.pairwise_append.mp hp)
  have hdisj : Disjoint (listUnion C) c :=
    Disjoint.symm (disjoint_listUnion_right c C
      (fun b hb => (hp'.2.2 b hb c (List.mem_singleton_self c)).symm))
  refine ⟨hl', hp'.1, ?_, ?_⟩
  · rw [← hu, listUnion_append, listUnion_cons, listUnion_nil, Finset.union_empty]
    exact (Finset.union_sdiff_cancel_right hdisj).symm
  · intro k hk'
    have := hk k (by simp; omega)
    rwa [List.getD_append _ _ _ _ hk', List.getD_append _ _ _ _ (hl' ▸ hk')] at this

/-! ## Partitioning a position range into runs

A row terminates at position p when the next position starts a different row.
For positions [b, e) this produces one accumulation event per terminating row
plus one unresolved final group (the carry); together they account for every
position exactly once. -/

/-- Sum of the values of the run of position p, clipped to start no earlier
than b. -/
def G (ridx v : Nat → Int) (b p : Nat) : Int :=
  ∑ j ∈ Finset.Ico (max b (segStart ridx p)) (p + 1), v j

/-- The positions the run of p (clipped at b) consists of. -/
def runCover (ridx : Nat → Int) (b p : Nat) : Finset Nat :=
  Finset.Ico (max b (segStart ridx p)) (p + 1)

/-- One payload per terminating position p in [b, e-1). -/
def termList {α : Type _} (ridx : Nat → Int) (pay : Nat → α) (b e : Nat) : List α :=
  (List.range' b (e - 1 - b)).filterMap
    (fun p => if ridx p ≠ ridx (p + 1) then some (pay p) else none)

def termEvents (ridx v : Nat → Int) (b e : Nat) : List (Int × Int) :=
  termList ridx (fun p => (ridx p, G ridx v b p)) b e

def termCovers (ridx : Nat → Int) (b e : Nat) : List (Finset Nat) :=
  termList ridx (fun p => runCover ridx b p) b e

theorem termList_single {α : Type _} (ridx : Nat → Int) (pay : Nat → α) (b e : Nat)
    (hSb : segStart ridx (e - 1) ≤ b) :
    termList ridx pay b e = [] := by
  rw [termList, List.filterMap_eq_nil_iff]
  intro p hp
  rw [List.mem_range'_1] at hp
  have h1 : ridx p = ridx (e - 1) := segStart_mem ridx (e - 1) p (by omega) (by omega)
  have h2 : ridx (p + 1) = ridx (e - 1) := segStart_mem ridx (e - 1) (p + 1) (by omega) (by omega)
  simp [h1, h2]

theorem termList_split {α : Type _} (ridx : Nat → Int) (pay : Nat → α) (b e : Nat)
    (hbe : b < e) (hbS : b < segStart ridx (e - 1)) :
    termList ridx pay b e = termList ridx pay b (segStart ridx (e - 1)) ++ [pay (segStart ridx (e - 1) - 1)] := by
  set S := segStart ridx (e - 1) with hS
  have hSe : S ≤ e - 1 := segStart_le ridx (e - 1)
  have hrS : ridx S = ridx (e - 1) := segStart_mem ridx (e - 1) S (le_refl S) (by omega)
  have hbrk : ridx (S - 1) ≠ ridx S := by
    intro hcontra
    exact segStart_break ridx (e - 1) (by omega) (by rw [← hS, hcontra, hrS])
  have hr : List.range' b (e - 1 - b) = List.range' b (S - 1 - b) ++ List.range' (S - 1) (e - S) := by
    have h := List.range'_append_1 b (S - 1 - b) (e - S)
    rw [show b + (S - 1 - b) = S - 1 by omega] at h
    rw [show e - 1 - b = e - S + (S - 1 - b) by omega]
    exact h.symm
  have hcons : List.range' (S - 1) (e - S) = (S - 1) :: List.range' S (e - S - 1) := by
    have h1 : e - S = (e - S - 1) + 1 := by omega
    conv_lhs => rw [h1, List.range'_succ]
    rw [show S - 1 + 1 = S by omega]
  have hnil : List.filterMap
      (fun p => if ridx p ≠ ridx (p + 1) then some (pay p) else none)
      (List.range' S (e - S - 1)) = [] := by
    rw [List.filterMap_eq_nil_iff]
    intro p hp
    rw [List.mem_range'_1] at hp
    have h1 : ridx p = ridx (e - 1) := segStart_mem ridx (e - 1) p (by omega) (by omega)
    have h2 : ridx (p + 1) = ridx (e - 1) := segStart_mem ridx (e - 1) (p + 1) (by omega) (by omega)
    simp [h1, h2]
  have hne : ridx (S - 1) ≠ ridx (S - 1 + 1) := by
    rw [show S - 1 + 1 = S by omega]; exact hbrk
  rw [termList, hr, List.filterMap_append, hcons]
  rw [termList]
  congr 1
  simp only [List.filterMap_cons, hnil]
  simp [hne]

/-- The events for rows terminating inside [b, e), together with the final
unresolved group ending at e-1, account for every position of [b, e) exactly
once. -/
theorem warpPartition (ridx v : Nat → Int) (b : Nat) :
    ∀ e, b < e →
    Covers ridx v (termEvents ridx v b e ++ [(ridx (e - 1), G ridx v b (e - 1))])
      (termCovers ridx b e ++ [runCover ridx b (e - 1)]) (Finset.Ico b e) := by
  intro e
  induction e using Nat.strong_induction_on with
  | _ e ih =>
    intro hbe
    by_cases hSb : segStart ridx (e - 1) ≤ b
    · -- a single run covers all of [b, e)
      have hrc : runCover ridx b (e - 1) = Finset.Ico b e := by
        rw [runCover, Nat.max_eq_left hSb]
        congr 1
        omega
      rw [termEvents, termCovers, termList_single ridx _ b e hSb,
        termList_single ridx _ b e hSb]
      simp only [List.nil_append]
      rw [← hrc]
      refine covers_singleton ridx v _ _ rfl ?_
      intro j hj
      rw [runCover, Nat.max_eq_left hSb, Finset.mem_Ico] at hj
      exact segStart_mem ridx (e - 1) j (by omega) (by omega)
    · push_neg at hSb
      set S := segStart ridx (e - 1) with hS
      have hSe : S ≤ e - 1 := segStart_le ridx (e - 1)
      have hIH := ih S (by omega) (by omega)
      have hrc : runCover ridx b (e - 1) = Finset.Ico S e := by
        rw [runCover, ← hS, Nat.max_eq_right (le_of_lt hSb)]
        congr 1
        omega
      have hsingle : Covers ridx v [(ridx (e - 1), G ridx v b (e - 1))]
          [runCover ridx b (e - 1)] (Finset.Ico S e) := by
        rw [← hrc]
        refine covers_singleton ridx v _ _ rfl ?_
        intro j hj
        rw [hrc, Finset.mem_Ico] at hj
        exact segStart_mem ridx (e - 1) j (by omega) (by omega)
      have happ := covers_append ridx v _ _ _ _ _ _ hIH hsingle
        (Finset.Ico_disjoint_Ico_consecutive b S e)
      rw [Finset.Ico_union_Ico_eq_Ico (by omega) (by omega)] at happ
      have hgoal : termEvents ridx v b e ++ [(ridx (e - 1), G ridx v b (e - 1))]
          = (termEvents ridx v b S ++ [(ridx (S - 1), G ridx v b (S - 1))])
            ++ [(ridx (e - 1), G ridx v b (e - 1))] := by
        rw [termEvents, termList_split ridx _ b e hbe (hS ▸ hSb)]
        rfl
      have hgoalc : termCovers ridx b e ++ [runCover ridx b (e - 1)]
          = (termCovers ridx b S ++ [runCover ridx b (S - 1)])
            ++ [runCover ridx b (e - 1)] := by
        rw [termCovers, termList_split ridx _ b e hbe (hS ▸ hSb)]
        rfl
      rw [hgoal, hgoalc]
      exact happ

/-! ## The COO matrix data model -/

structure COOMatrix where
  num_rows : Nat
  num_cols : Nat
  entries : List (Int × Int × Int)

namespace COOMatrix

/-- row_indices -/
def rowA (m : COOMatrix) (n : Nat) : Int := (m.entries.getD n (0, 0, 0)).1

/-- column_indices -/
def colA (m : COOMatrix) (n : Nat) : Int := (m.entries.getD n (0, 0, 0)).2.1

/-- values -/
def valA (m : COOMatrix) (n : Nat) : Int := (m.entries.getD n (0, 0, 0)).2.2

def num_entries (m : COOMatrix) : Nat := m.entries.length

/-- The row index array is non-decreasing (the caller-supplied sortedness contract). -/
def RowSorted (m : COOMatrix) : Prop :=
  ∀ b, b < m.num_entries → ∀ a, a ≤ b → m.rowA a ≤ m.rowA b

/-- Row indices are genuine indices (non-negative); in particular none of them
collides with the sentinel -1 of the level-2 reduction kernel. -/
def RowsNonneg (m : COOMatrix) : Prop :=
  ∀ n, n < m.num_entries → 0 ≤ m.rowA n

instance (m : COOMatrix) : Decidable (RowSorted m) := by
  unfold RowSorted; infer_instance

instance (m : COOMatrix) : Decidable (RowsNonneg m) := by
  unfold RowsNonneg; infer_instance

end COOMatrix

/-! ## The level-1 kernel, one warp at a time

Each warp owns the interval [warp_id * interval_size, min(warp_id *
interval_size + interval_size, num_entries)) of entry positions and walks it in
strides of WARP_SIZE = 32.  tail and interval_size are multiples of 32, so every
stride of an active warp is full.  Warps within a block touch disjoint slices of
the shared idx/val/carry arrays, so one warp can be modelled on its own. -/

section Kernels

variable (I J V : Nat → Int) (x : Int → Int)

/-- The product A[row,col] * x[col] of entry position n
(val = V[n] * fetch_x(J[n], x)). -/
def prodAt (n : Nat) : Int := V n * x (J n)

/-- Rows loaded by the 32 lanes of the stride starting at position n. -/
def strideIdx (n : Nat) : Nat → Int := fun t => I (n + t)

/-- Initial lane values of the stride at n under incoming carry c: the entry
products, with the carried partial sum folded into lane 0 when the stride's
first row equals the carried row. -/
def strideVal (c : Int × Int) (n : Nat) : Nat → Int :=
  fun t => prodAt J V x (n + t) + (if t = 0 ∧ I n = c.1 then c.2 else 0)

/-- Lane 0's flush: when the stride's first row differs from the carried row,
the carried row is complete and its partial sum is written to y. -/
def strideFlush (c : Int × Int) (n : Nat) : List (Int × Int) :=
  if I n = c.1 then [] else [(c.1, c.2)]

/-- Lane values after the warp's segmented scan. -/
def strideScan (c : Int × Int) (n : Nat) : Nat → Int :=
  segreduce_warp (strideIdx I n) (strideVal I J V x c n)

/-- All accumulations of one stride, in lane order: lane 0's carry flush, then
every lane t < 31 whose row differs from its successor's row writes its scanned
value (lanes write distinct rows, so lane order is value-faithful). -/
def strideWrites (c : Int × Int) (n : Nat) : List (Int × Int) :=
  strideFlush I c n ++ (List.range 31).filterMap
    (fun t => if strideIdx I n t ≠ strideIdx I n (t + 1)
      then some (strideIdx I n t, strideScan I J V x c n t) else none)

/-- Lane 31 becomes the new carry. -/
def strideCarry (c : Int × Int) (n : Nat) : Int × Int :=
  (strideIdx I n 31, strideScan I J V x c n 31)

/-- Run k full strides starting at position n with incoming carry c; returns the
final carry and the list of accumulations, in order. -/
def runStrides : Nat → Nat → (Int × Int) → (Int × Int) × List (Int × Int)
  | 0, _, c => (c, [])
  | k + 1, n, c =>
      let r := runStrides k (n + 32) (strideCarry I J V x c n)
      (r.1, strideWrites I J V x c n ++ r.2)

/-- Specification of the carry once positions [b, m) have been processed: the
row of the last processed position, and the sum of the products of its
(clipped) run.  For m = b this is the kernel's initialisation
(carry_idx = I[begin], carry_val = 0). -/
def carrySpec (b m : Nat) : Int × Int :=
  (I (max b (m - 1)),
    ∑ j ∈ Finset.Ico (max b (segStart I (max b (m - 1)))) m, prodAt J V x j)

theorem carrySpec_init (b : Nat) : carrySpec I J V x b b = (I b, 0) := by
  unfold carrySpec
  have h1 : max b (b - 1) = b := by omega
  rw [h1]
  have h2 : Finset.Ico (max b (segStart I b)) b = ∅ :=
    Finset.Ico_eq_empty (by omega)
  rw [h2, Finset.sum_empty]

theorem carrySpec_of_lt (b m : Nat) (h : b < m) :
    carrySpec I J V x b m = (I (m - 1), G I (prodAt J V x) b (m - 1)) := by
  unfold carrySpec G
  have h1 : max b (m - 1) = m - 1 := by omega
  rw [h1, show m - 1 + 1 = m by omega]

end Kernels

theorem filterMap_congr_on {α β : Type _} (l : List α) (f g : α → Option β)
    (h : ∀ a ∈ l, f a = g a) : l.filterMap f = l.filterMap g := by
  induction l with
  | nil => rfl
  | cons a l ih =>
      rw [List.filterMap_cons, List.filterMap_cons, h a (List.mem_cons_self a l),
        ih (fun a ha => h a (List.mem_cons_of_mem _ ha))]

theorem termList_glue {α : Type _} (ridx : Nat → Int) (pay : Nat → α)
    (lo e₁ e₂ : Nat) (h1 : lo ≤ e₁ - 1) (h2 : e₁ ≤ e₂) (h3 : 1 ≤ e₁) :
    termList ridx pay lo e₁ ++ termList ridx pay (e₁ - 1) e₂ = termList ridx pay lo e₂ := by
  rw [termList, termList, termList, ← List.filterMap_append]
  congr 1
  have h := List.range'_append_1 lo (e₁ - 1 - lo) (e₂ - 1 - (e₁ - 1))
  rw [show lo + (e₁ - 1 - lo) = e₁ - 1 by omega] at h
  rw [h]
  congr 1
  omega

theorem termList_empty {α : Type _} (ridx : Nat → Int) (pay : Nat → α)
    (lo e : Nat) (h : e - 1 ≤ lo) : termList ridx pay lo e = [] := by
  rw [termList, show e - 1 - lo = 0 by omega]
  rfl

/-- The run start within a stride window is the global run start, clipped to the
window and shifted. -/
theorem segStart_shift (I : Nat → Int) (m t : Nat) :
    segStart (strideIdx I m) t = max (segStart I (m + t)) m - m := by
  apply segStart_eq_of
  · have := segStart_le I (m + t); omega
  · intro j hj₁ hj₂
    show I (m + j) = I (m + t)
    exact segStart_mem I (m + t) (m + j) (by omega) (by omega)
  · by_cases h : segStart I (m + t) ≤ m
    · left; omega
    · right
      push_neg at h
      have h0 : 0 < segStart I (m + t) := by omega
      show I (m + (max (segStart I (m + t)) m - m - 1)) ≠ I (m + t)
      rw [show m + (max (segStart I (m + t)) m - m - 1) = segStart I (m + t) - 1 by omega]
      exact segStart_break I (m + t) h0

/-- Each lane of a stride ends the scan holding the sum of the products of its
row's run, clipped at the warp's interval start b, with the incoming carry
folded in exactly when the run reaches back past the stride. -/
theorem strideScan_eval (I J V : Nat → Int) (x : Int → Int) (E b m : Nat)
    (hmon : ∀ a b', a ≤ b' → b' < E → I a ≤ I b')
    (hbm : b ≤ m) (hE : m + 32 ≤ E) :
    ∀ t, t < 32 → strideScan I J V x (carrySpec I J V x b m) m t
      = G I (prodAt J V x) b (m + t) := by
  intro t ht
  have hruns : RunsOn (strideIdx I m) 32 := by
    apply runsOn_of_monotone
    intro a b' hab hb'
    exact hmon (m + a) (m + b') (by omega) (by omega)
  have h1 : strideScan I J V x (carrySpec I J V x b m) m t
      = ∑ j ∈ Finset.Ico (segStart (strideIdx I m) t) (t + 1),
          strideVal I J V x (carrySpec I J V x b m) m j :=
    segreduce_warp_correct (strideIdx I m) (strideVal I J V x (carrySpec I J V x b m) m)
      hruns t ht
  rw [h1, segStart_shift I m t]
  have hSgle : segStart I (m + t) ≤ m + t := segStart_le I (m + t)
  simp only [strideVal]
  rw [Finset.sum_add_distrib]
  have hshift : ∑ j ∈ Finset.Ico (max (segStart I (m + t)) m - m) (t + 1),
        prodAt J V x (m + j)
      = ∑ j ∈ Finset.Ico (max (segStart I (m + t)) m) (m + t + 1), prodAt J V x j := by
    rw [Finset.sum_Ico_add (prodAt J V x) (max (segStart I (m + t)) m - m) (t + 1) m]
    rw [show max (segStart I (m + t)) m - m + m = max (segStart I (m + t)) m by omega,
      show t + 1 + m = m + t + 1 by omega]
  rw [hshift]
  have hite : ∑ j ∈ Finset.Ico (max (segStart I (m + t)) m - m) (t + 1),
        (if j = 0 ∧ I m = (carrySpec I J V x b m).1 then (carrySpec I J V x b m).2 else 0)
      = if max (segStart I (m + t)) m - m = 0 ∧ I m = (carrySpec I J V x b m).1
          then (carrySpec I J V x b m).2 else 0 := by
    by_cases hP : I m = (carrySpec I J V x b m).1
    · simp only [hP, and_true]
      rw [Finset.sum_ite_eq' (Finset.Ico (max (segStart I (m + t)) m - m) (t + 1)) 0
        (fun _ => (carrySpec I J V x b m).2)]
      by_cases h0 : max (segStart I (m + t)) m - m = 0
      · rw [if_pos (by rw [Finset.mem_Ico]; omega), if_pos h0]
      · rw [if_neg (by rw [Finset.mem_Ico]; omega), if_neg h0]
    · simp [hP]
  rw [hite]
  simp only [G]
  rcases Nat.eq_or_lt_of_le hbm with hb | hb
  · -- first stride of the warp: the carry is (I b, 0)
    have hc2 : (carrySpec I J V x b m).2 = 0 := by
      rw [← hb, carrySpec_init]
    rw [hc2]
    have hmm : max (segStart I (m + t)) m = max b (segStart I (m + t)) := by omega
    rw [hmm]
    by_cases hcond : max b (segStart I (m + t)) - m = 0 ∧ I m = (carrySpec I J V x b m).1
    · rw [if_pos hcond, add_zero]
    · rw [if_neg hcond, add_zero]
  · have hcfst : (carrySpec I J V x b m).1 = I (m - 1) := by
      rw [carrySpec_of_lt I J V x b m hb]
    have hcsnd : (carrySpec I J V x b m).2 = G I (prodAt J V x) b (m - 1) := by
      rw [carrySpec_of_lt I J V x b m hb]
    by_cases hfold : I m = I (m - 1)
    · by_cases h0 : max (segStart I (m + t)) m - m = 0
      · -- carry folded and the lane's run reaches the stride start: concatenate
        have hSgm : segStart I (m + t) ≤ m := by omega
        have hA : I m = I (m + t) := segStart_mem I (m + t) m (by omega) (by omega)
        have hB : I (m - 1) = I (m + t) := hfold.symm.trans hA
        have hseq : segStart I (m - 1) = segStart I (m + t) :=
          segStart_eq_of_eq I E (runsOn_of_monotone I E hmon) (m - 1) (m + t)
            (by omega) (by omega) hB
        rw [if_pos ⟨h0, by rw [hcfst]; exact hfold⟩, hcsnd]
        rw [G, hseq, show m - 1 + 1 = m by omega]
        have hmm : max (segStart I (m + t)) m = m := by omega
        rw [hmm, add_comm]
        exact Finset.sum_Ico_consecutive _ (by omega) (by omega)
      · rw [if_neg (by intro hcontra; exact h0 hcontra.1), add_zero]
        have e1 : max (segStart I (m + t)) m = segStart I (m + t) := by omega
        have e2 : max b (segStart I (m + t)) = segStart I (m + t) := by omega
        rw [e1, e2]
    · have hfoldc : ¬ I m = (carrySpec I J V x b m).1 := by
        rw [hcfst]; exact hfold
      rw [if_neg (by intro hcontra; exact hfoldc hcontra.2), add_zero]
      by_cases h0 : segStart I (m + t) ≤ m
      · have hSgeq : segStart I (m + t) = m := by
          by_contra hne
          have hA : I (m - 1) = I (m + t) :=
            segStart_mem I (m + t) (m - 1) (by omega) (by omega)
          have hB : I m = I (m + t) := segStart_mem I (m + t) m (by omega) (by omega)
          exact hfold (hB.trans hA.symm)
        have e1 : max (segStart I (m + t)) m = m := by omega
        have e2 : max b (segStart I (m + t)) = m := by omega
        rw [e1, e2]
      · have e1 : max (segStart I (m + t)) m = segStart I (m + t) := by omega
        have e2 : max b (segStart I (m + t)) = segStart I (m + t) := by omega
        rw [e1, e2]

theorem filterMap_singleton_of_some {α β : Type _} (f : α → Option β) (a : α) (b : β)
    (h : f a = some b) : List.filterMap f [a] = [b] := by
  rw [List.filterMap_cons_some h]
  rfl

theorem filterMap_singleton_of_none {α β : Type _} (f : α → Option β) (a : α)
    (h : f a = none) : List.filterMap f [a] = [] := by
  rw [List.filterMap_cons_none h]
  rfl

theorem strideCarry_spec (I J V : Nat → Int) (x : Int → Int) (E b m : Nat)
    (hmon : ∀ a b', a ≤ b' → b' < E → I a ≤ I b')
    (hbm : b ≤ m) (hE : m + 32 ≤ E) :
    strideCarry I J V x (carrySpec I J V x b m) m = carrySpec I J V x b (m + 32) := by
  have h31 := strideScan_eval I J V x E b m hmon hbm hE 31 (by norm_num)
  rw [carrySpec_of_lt I J V x b (m + 32) (by omega)]
  unfold strideCarry
  rw [h31, show m + 32 - 1 = m + 31 by omega]
  rfl

theorem strideWrites_spec (I J V : Nat → Int) (x : Int → Int) (E b m : Nat)
    (hmon : ∀ a b', a ≤ b' → b' < E → I a ≤ I b')
    (hbm : b ≤ m) (hE : m + 32 ≤ E) :
    strideWrites I J V x (carrySpec I J V x b m) m
      = termList I (fun p => (I p, G I (prodAt J V x) b p)) (max b (m - 1)) (m + 32) := by
  have hglue := termList_glue I (fun p => (I p, G I (prodAt J V x) b p))
    (max b (m - 1)) (m + 1) (m + 32) (by omega) (by omega) (by omega)
  rw [← hglue]
  unfold strideWrites
  congr 1
  · -- lane 0's carry flush accounts for the possible termination at position m-1
    rcases Nat.eq_or_lt_of_le hbm with hb | hb
    · rw [← hb, carrySpec_init]
      unfold strideFlush
      rw [if_pos rfl, termList_empty I _ (max b (b - 1)) (b + 1) (by omega)]
    · rw [carrySpec_of_lt I J V x b m hb]
      rw [termList, show max b (m - 1) = m - 1 by omega,
        show m + 1 - 1 - (m - 1) = 1 by omega, List.range'_one]
      unfold strideFlush
      by_cases hf : I m = I (m - 1)
      · rw [if_pos (by exact hf)]
        have hg : (if I (m - 1) ≠ I (m - 1 + 1)
            then some ((I (m - 1), G I (prodAt J V x) b (m - 1))) else none)
            = (none : Option (Int × Int)) := by
          rw [show m - 1 + 1 = m by omega]
          exact if_neg (fun hcon => hcon hf.symm)
        rw [filterMap_singleton_of_none _ (m - 1) hg]
      · rw [if_neg (by exact hf)]
        have hg : (if I (m - 1) ≠ I (m - 1 + 1)
            then some ((I (m - 1), G I (prodAt J V x) b (m - 1))) else none)
            = some ((I (m - 1), G I (prodAt J V x) b (m - 1))) := by
          rw [show m - 1 + 1 = m by omega]
          exact if_pos (fun hh => hf hh.symm)
        rw [filterMap_singleton_of_some _ (m - 1) _ hg]
  · -- the 31 lane comparisons account for terminations at positions m..m+30
    rw [termList, show m + 1 - 1 = m by omega, show m + 32 - 1 - m = 31 by omega]
    rw [List.range'_eq_map_range, List.filterMap_map]
    apply filterMap_congr_on
    intro t hmem
    rw [List.mem_range] at hmem
    have hsc := strideScan_eval I J V x E b m hmon hbm hE t (by omega)
    show (if strideIdx I m t ≠ strideIdx I m (t + 1)
      then some (strideIdx I m t, strideScan I J V x (carrySpec I J V x b m) m t) else none)
      = (if I (m + t) ≠ I (m + t + 1)
      then some (I (m + t), G I (prodAt J V x) b (m + t)) else none)
    rw [hsc]
    rfl

/-- The central invariant of the level-1 kernel: running k full strides from
position m with the specified carry yields the specified carry at m + 32k, and
deposits exactly the termination events of the processed window
[max b (m-1), m + 32k - 1). -/
theorem runStrides_spec (I J V : Nat → Int) (x : Int → Int) (E b : Nat)
    (hmon : ∀ a b', a ≤ b' → b' < E → I a ≤ I b') :
    ∀ k m, b ≤ m → m + 32 * k ≤ E →
    runStrides I J V x k m (carrySpec I J V x b m)
      = (carrySpec I J V x b (m + 32 * k),
         termList I (fun p => (I p, G I (prodAt J V x) b p)) (max b (m - 1)) (m + 32 * k)) := by
  intro k
  induction k with
  | zero =>
      intro m hbm hE
      show (carrySpec I J V x b m, []) = _
      rw [termList_empty I _ (max b (m - 1)) (m + 32 * 0) (by omega)]
      rw [show m + 32 * 0 = m from by omega]
  | succ k ih =>
      intro m hbm hE
      show (let r := runStrides I J V x k (m + 32)
              (strideCarry I J V x (carrySpec I J V x b m) m);
            (r.1, strideWrites I J V x (carrySpec I J V x b m) m ++ r.2)) = _
      rw [strideCarry_spec I J V x E b m hmon hbm (by omega)]
      rw [strideWrites_spec I J V x E b m hmon hbm (by omega)]
      rw [ih (m + 32) (by omega) (by omega)]
      have hglue := termList_glue I (fun p => (I p, G I (prodAt J V x) b p))
        (max b (m - 1)) (m + 32) (m + 32 * (k + 1)) (by omega) (by omega) (by omega)
      have hlo : max b (m + 32 - 1) = m + 32 - 1 := by omega
      show (carrySpec I J V x b (m + 32 + 32 * k),
        termList I (fun p => (I p, G I (prodAt J V x) b p)) (max b (m - 1)) (m + 32)
          ++ termList I (fun p => (I p, G I (prodAt J V x) b p)) (max b (m + 32 - 1))
              (m + 32 + 32 * k)) = _
      rw [hlo, show m + 32 + 32 * k = m + 32 * (k + 1) from by ring]
      rw [hglue]

/-! ## Warps, the two level-1 kernels, the level-2 kernels, and the drivers -/

/-- Number of full strides of warp w: its interval is
[w * interval_size, min(w * interval_size + interval_size, num_entries)), and
both bounds are multiples of 32 in every launch. -/
def warpStrideCount (isz tail w : Nat) : Nat :=
  (min ((w + 1) * isz) tail - w * isz) / 32

/-- One warp of spmv_coo_flat_kernel: carry initialised to (I[begin], 0), then
the strides of its interval.  Returns the final carry (which the kernel stores
into temp_rows[warp_id], temp_vals[warp_id]) and the accumulations into y. -/
def warpRun (I J V : Nat → Int) (x : Int → Int) (isz tail w : Nat) :
    (Int × Int) × List (Int × Int) :=
  runStrides I J V x (warpStrideCount isz tail w) (w * isz) (I (w * isz), 0)

/-- temp_rows written by the level-1 kernel. -/
def temp_rows (I J V : Nat → Int) (x : Int → Int) (isz tail : Nat) (w : Nat) : Int :=
  (warpRun I J V x isz tail w).1.1

/-- temp_vals written by the level-1 kernel. -/
def temp_vals (I J V : Nat → Int) (x : Int → Int) (isz tail : Nat) (w : Nat) : Int :=
  (warpRun I J V x isz tail w).1.2

/-- All direct accumulations of the level-1 deferred kernel, warp by warp. -/
def flatKernelEvents (I J V : Nat → Int) (x : Int → Int) (isz tail aw : Nat) :
    List (Int × Int) :=
  (List.range aw).flatMap (fun w => (warpRun I J V x isz tail w).2)

/-- One warp of spmv_coo_flat_atomic_kernel, value view: the same direct
accumulations (an atomicAdd deposits the same value as a plain add), followed by
the final carry, which this kernel atomically adds to y instead of buffering. -/
def atomicWarpWrites (I J V : Nat → Int) (x : Int → Int) (isz tail w : Nat) :
    List (Int × Int) :=
  (warpRun I J V x isz tail w).2 ++ [(warpRun I J V x isz tail w).1]

/-- All accumulations of the atomic kernel. -/
def atomicKernelEvents (I J V : Nat → Int) (x : Int → Int) (isz tail aw : Nat) :
    List (Int × Int) :=
  (List.range aw).flatMap (fun w => atomicWarpWrites I J V x isz tail w)

/-- An accumulation of the atomic kernel together with the kind of add
instruction used for it. -/
structure AEvent where
  row : Int
  val : Int
  viaAtomic : Bool
  deriving DecidableEq

/-- The atomic kernel's accumulations with their instruction kind: a direct
write uses atomicAdd exactly when its row equals first_idx = I[warp_id *
interval_size] (both the carry-flush site and the lane-termination site test
this), and the final carry always uses atomicAdd. -/
def atomicWarpEvents (I J V : Nat → Int) (x : Int → Int) (isz tail w : Nat) :
    List AEvent :=
  ((warpRun I J V x isz tail w).2.map
    (fun e => ⟨e.1, e.2, if e.1 = I (w * isz) then true else false⟩))
  ++ [⟨(warpRun I J V x isz tail w).1.1, (warpRun I J V x isz tail w).1.2, true⟩]

/-- Modelled from the spec: spmv_coo_serial_kernel of
cusp/device/spmv_coo_serial.h (a file not present in src/), the sequential tail
handler: iterate the entries in order, accumulating val * x[col] into y[row]
with plain addition. -/
def spmv_coo_serial_kernel (entries : List (Int × Int × Int)) (x : Int → Int)
    (y : Int → Int) : Int → Int :=
  entries.foldl (fun y e => accum y e.1 (e.2.2 * x e.2.1)) y

/-- The accumulations of the serial kernel. -/
def serialEvents (entries : List (Int × Int × Int)) (x : Int → Int) : List (Int × Int) :=
  entries.map (fun e => (e.1, e.2.2 * x e.2.1))

theorem spmv_coo_serial_kernel_eq (entries : List (Int × Int × Int)) (x : Int → Int)
    (y : Int → Int) :
    spmv_coo_serial_kernel entries x y = applyWrites y (serialEvents entries x) := by
  induction entries generalizing y with
  | nil => rfl
  | cons e l ih =>
      rw [spmv_coo_serial_kernel, serialEvents] at *
      rw [List.foldl_cons, List.map_cons, applyWrites_cons]
      exact ih _

/-- The shared rows array of one block iteration of the level-2 kernel: BLOCK
_SIZE = 512 positions loaded from temp_rows[base ..], padded with the sentinel
-1 beyond the cnt valid lanes (and at rows[BLOCK_SIZE], set before the loop). -/
def padRows (trows : Nat → Int) (base cnt : Nat) : Nat → Int :=
  fun t => if t < cnt then trows (base + t) else -1

/-- The shared vals array, padded with 0. -/
def padVals (tvals : Nat → Int) (base cnt : Nat) : Nat → Int :=
  fun t => if t < cnt then tvals (base + t) else 0

/-- The accumulations of one block iteration of spmv_coo_reduce_update_kernel:
after segreduce_block, each lane t holding a valid element (t < cnt; in a full
block cnt = 512 and the guard is vacuous, in the last partial block it is the
source's i < num_warps test) whose row differs from lane t+1's row writes its
scanned value to y[rows[t]]. -/
def reduceChunkEvents (trows tvals : Nat → Int) (base cnt : Nat) : List (Int × Int) :=
  (List.range 512).filterMap (fun t =>
    if t < cnt ∧ padRows trows base cnt t ≠ padRows trows base cnt (t + 1)
    then some (padRows trows base cnt t,
      segreduce_block (padRows trows base cnt) (padVals tvals base cnt) t)
    else none)

/-- All accumulations of spmv_coo_reduce_update_kernel: the full blocks of
[0, end) with end = num_warps - num_warps % 512, then the final partial block
when end < num_warps. -/
def reduceEvents (nw : Nat) (trows tvals : Nat → Int) : List (Int × Int) :=
  ((List.range ((nw - nw % 512) / 512)).flatMap
    (fun c => reduceChunkEvents trows tvals (c * 512) 512))
  ++ (if nw - nw % 512 < nw
      then reduceChunkEvents trows tvals (nw - nw % 512) (nw % 512)
      else [])

/-- The second level of the segmented reduction (default policy). -/
def spmv_coo_reduce_update_kernel (nw : Nat) (trows tvals : Nat → Int)
    (y : Int → Int) : Int → Int :=
  applyWrites y (reduceEvents nw trows tvals)

/-- The second level, alternative policy: independently accumulate every
buffered carry into y. -/
def spmv_coo_scatter_update_kernel (nw : Nat) (trows tvals : Nat → Int)
    (y : Int → Int) : Int → Int :=
  applyWrites y ((List.range nw).map (fun i => (trows i, tvals i)))

/-- The host-side duplicate-row compaction step of the host_method branch of
__spmv_coo_flat: merge each element into the growing output when its row equals
the last kept row, else append it. -/
def compressFold (acc : List (Int × Int)) (e : Int × Int) : List (Int × Int) :=
  match acc with
  | [] => [e]
  | a :: rest => if a.1 = e.1 then (a.1, a.2 + e.2) :: rest else e :: a :: rest

def hostCompress (l : List (Int × Int)) : List (Int × Int) :=
  (l.foldl compressFold []).reverse

/-- The compile-time constant selecting the level-2 policy in __spmv_coo_flat:
const bool host_method = false. -/
def host_method : Bool := false

/-- Modelled from the spec: fetch_x of cusp/device/texture.h (a file not present
in src/); it reads the element x[col] either directly (UseCache = false) or
through the read-only texture cache bound to x (UseCache = true) and returns the
same element either way. -/
def fetch_x (useCache : Bool) (x : Int → Int) (j : Int) : Int := x j

/-- The launch parameters computed by __spmv_coo_flat and
__spmv_coo_flat_atomic.  U abstracts the device limit WARPS_PER_BLOCK *
MAX_BLOCKS (MAX_THREADS lives in cusp/device/common.h, not present in src/);
the spec calls it "a maximum number of concurrently active groups U". -/
structure FlatPlan where
  num_units : Nat
  num_warps : Nat
  num_iters : Nat
  interval_size : Nat
  tail : Nat
  active_warps : Nat

def flatPlan (num_entries U : Nat) : FlatPlan :=
  let num_units := num_entries / WARP_SIZE
  let num_warps := min num_units U
  let num_iters := DIVIDE_INTO num_units num_warps
  let interval_size := WARP_SIZE * num_iters
  let tail := num_units * WARP_SIZE
  let active_warps := if interval_size = 0 then 0 else DIVIDE_INTO tail interval_size
  ⟨num_units, num_warps, num_iters, interval_size, tail, active_warps⟩

/-- __spmv_coo_flat: empty matrix is a no-op; fewer entries than one warp go to
the serial kernel alone; otherwise the level-1 kernel runs on [0, tail), the
serial kernel on [tail, num_entries), and (host_method being false) the level-2
reduce-update kernel folds the buffered carries into y. -/
def __spmv_coo_flat (useCache : Bool) (U : Nat) (m : COOMatrix) (x : Int → Int)
    (y : Int → Int) : Int → Int :=
  if m.num_entries = 0 then y
  else if m.num_entries < WARP_SIZE then spmv_coo_serial_kernel m.entries x y
  else
    let xf := fetch_x useCache x
    let p := flatPlan m.num_entries U
    let y1 := applyWrites y
      (flatKernelEvents m.rowA m.colA m.valA xf p.interval_size p.tail p.active_warps)
    let y2 := spmv_coo_serial_kernel (m.entries.drop p.tail) x y1
    spmv_coo_reduce_update_kernel p.active_warps
      (temp_rows m.rowA m.colA m.valA xf p.interval_size p.tail)
      (temp_vals m.rowA m.colA m.valA xf p.interval_size p.tail) y2

def spmv_coo_flat (U : Nat) (m : COOMatrix) (x : Int → Int) (y : Int → Int) : Int → Int :=
  __spmv_coo_flat false U m x y

def spmv_coo_flat_tex (U : Nat) (m : COOMatrix) (x : Int → Int) (y : Int → Int) : Int → Int :=
  __spmv_coo_flat true U m x y

/-- __spmv_coo_flat_atomic: like __spmv_coo_flat, but the level-1 kernel
resolves every boundary carry with atomicAdd directly into y, so there is no
carry buffer and no second pass. -/
def __spmv_coo_flat_atomic (useCache : Bool) (U : Nat) (m : COOMatrix)
    (x : Int → Int) (y : Int → Int) : Int → Int :=
  if m.num_entries = 0 then y
  else if m.num_entries < WARP_SIZE then spmv_coo_serial_kernel m.entries x y
  else
    let xf := fetch_x useCache x
    let p := flatPlan m.num_entries U
    let y1 := applyWrites y
      (atomicKernelEvents m.rowA m.colA m.valA xf p.interval_size p.tail p.active_warps)
    spmv_coo_serial_kernel (m.entries.drop p.tail) x y1

def spmv_coo_flat_atomic (U : Nat) (m : COOMatrix) (x : Int → Int) (y : Int → Int) :
    Int → Int :=
  __spmv_coo_flat_atomic false U m x y

def spmv_coo_flat_atomic_tex (U : Nat) (m : COOMatrix) (x : Int → Int) (y : Int → Int) :
    Int → Int :=
  __spmv_coo_flat_atomic true U m x y

/-- The serial reference result: y[r] plus the sum, in storage order, of
val * x[col] over the entries of row r. -/
def rowSum (m : COOMatrix) (x : Int → Int) (r : Int) : Int :=
  ∑ n ∈ Finset.range m.num_entries,
    (if m.rowA n = r then m.valA n * x (m.colA n) else 0)

/-! ## Correctness of one warp -/

theorem aligned_helper (A B R : Nat) (hAB : B ≤ A) (hBR : B ≤ R) :
    32 * B + 32 * ((min (32 * A) (32 * R) - 32 * B) / 32) = min (32 * A) (32 * R) := by
  have hmin : min (32 * A) (32 * R) = 32 * min A R := by
    rcases le_total A R with h | h
    · rw [min_eq_left h, min_eq_left (by omega)]
    · rw [min_eq_right h, min_eq_right (by omega)]
  rw [hmin]
  have h1 : 32 * min A R - 32 * B = 32 * (min A R - B) := by omega
  rw [h1, Nat.mul_div_cancel_left _ (by norm_num : 0 < 32)]
  omega

theorem warpRun_spec (I J V : Nat → Int) (x : Int → Int) (E isz tail w : Nat)
    (hmon : ∀ a b', a ≤ b' → b' < E → I a ≤ I b')
    (h32i : isz % 32 = 0) (h32t : tail % 32 = 0)
    (hw : w * isz < tail) (hE : tail ≤ E) :
    warpRun I J V x isz tail w
      = (carrySpec I J V x (w * isz) (min ((w + 1) * isz) tail),
         termList I (fun p => (I p, G I (prodAt J V x) (w * isz) p))
           (w * isz) (min ((w + 1) * isz) tail)) := by
  obtain ⟨q, hq⟩ : ∃ q, isz = 32 * q := ⟨isz / 32, by omega⟩
  obtain ⟨r, hr⟩ : ∃ r, tail = 32 * r := ⟨tail / 32, by omega⟩
  have hk : w * isz + 32 * warpStrideCount isz tail w = min ((w + 1) * isz) tail := by
    unfold warpStrideCount
    subst hq hr
    have h1 : (w + 1) * (32 * q) = 32 * ((w + 1) * q) := by ring
    have h2 : w * (32 * q) = 32 * (w * q) := by ring
    have hw' : w * q < r := by
      have hc : 32 * (w * q) < 32 * r := by
        calc 32 * (w * q) = w * (32 * q) := by ring
        _ < 32 * r := hw
      omega
    rw [h1, h2]
    exact aligned_helper ((w + 1) * q) (w * q) r
      (Nat.mul_le_mul_right q (by omega)) (le_of_lt hw')
  have hmin_le : min ((w + 1) * isz) tail ≤ E := le_trans (min_le_right _ _) hE
  have hle : w * isz + 32 * warpStrideCount isz tail w ≤ E := by
    rw [hk]; exact hmin_le
  unfold warpRun
  rw [← carrySpec_init I J V x (w * isz)]
  rw [runStrides_spec I J V x E (w * isz) hmon (warpStrideCount isz tail w) (w * isz)
    (le_refl _) hle]
  rw [hk, show max (w * isz) (w * isz - 1) = w * isz by omega]

/-- The accumulations of one warp of the atomic kernel (direct writes plus the
final carry, added atomically) account exactly for the warp's interval. -/
theorem atomicWarp_covers (I J V : Nat → Int) (x : Int → Int) (E isz tail w : Nat)
    (hmon : ∀ a b', a ≤ b' → b' < E → I a ≤ I b')
    (h32i : isz % 32 = 0) (h32t : tail % 32 = 0)
    (hpos : 0 < isz) (hw : w * isz < tail) (hE : tail ≤ E) :
    Covers I (prodAt J V x) (atomicWarpWrites I J V x isz tail w)
      (termCovers I (w * isz) (min ((w + 1) * isz) tail)
        ++ [runCover I (w * isz) (min ((w + 1) * isz) tail - 1)])
      (Finset.Ico (w * isz) (min ((w + 1) * isz) tail)) := by
  have hbe : w * isz < min ((w + 1) * isz) tail := by
    apply lt_min _ hw
    rw [Nat.succ_mul]
    omega
  have hspec := warpRun_spec I J V x E isz tail w hmon h32i h32t hw hE
  have hpart := warpPartition I (prodAt J V x) (w * isz) (min ((w + 1) * isz) tail) hbe
  rw [atomicWarpWrites, hspec]
  rw [carrySpec_of_lt I J V x (w * isz) (min ((w + 1) * isz) tail) hbe]
  exact hpart

/-- The direct accumulations of one warp of the deferred kernel account exactly
for the warp's interval minus the trailing run deferred through the carry
buffer. -/
theorem flatWarp_covers (I J V : Nat → Int) (x : Int → Int) (E isz tail w : Nat)
    (hmon : ∀ a b', a ≤ b' → b' < E → I a ≤ I b')
    (h32i : isz % 32 = 0) (h32t : tail % 32 = 0)
    (hpos : 0 < isz) (hw : w * isz < tail) (hE : tail ≤ E) :
    Covers I (prodAt J V x) ((warpRun I J V x isz tail w).2)
      (termCovers I (w * isz) (min ((w + 1) * isz) tail))
      (Finset.Ico (w * isz) (min ((w + 1) * isz) tail)
        \ runCover I (w * isz) (min ((w + 1) * isz) tail - 1)) := by
  have hcov := atomicWarp_covers I J V x E isz tail w hmon h32i h32t hpos hw hE
  rw [atomicWarpWrites] at hcov
  have hspec := warpRun_spec I J V x E isz tail w hmon h32i h32t hw hE
  have hbe : w * isz < min ((w + 1) * isz) tail := by
    apply lt_min _ hw
    rw [Nat.succ_mul]
    omega
  exact covers_drop_last I (prodAt J V x) _ _ _
    ((warpRun I J V x isz tail w).1)
    (runCover I (w * isz) (min ((w + 1) * isz) tail - 1)) hcov

/-- The warp's buffered carry: row I(e-1), value the sum of the clipped trailing
run, whose positions all carry that row. -/
theorem temp_spec (I J V : Nat → Int) (x : Int → Int) (E isz tail w : Nat)
    (hmon : ∀ a b', a ≤ b' → b' < E → I a ≤ I b')
    (h32i : isz % 32 = 0) (h32t : tail % 32 = 0)
    (hpos : 0 < isz) (hw : w * isz < tail) (hE : tail ≤ E) :
    temp_rows I J V x isz tail w = I (min ((w + 1) * isz) tail - 1) ∧
    temp_vals I J V x isz tail w
      = ∑ j ∈ runCover I (w * isz) (min ((w + 1) * isz) tail - 1), prodAt J V x j ∧
    ∀ j ∈ runCover I (w * isz) (min ((w + 1) * isz) tail - 1),
      I j = I (min ((w + 1) * isz) tail - 1) := by
  have hbe : w * isz < min ((w + 1) * isz) tail := by
    apply lt_min _ hw
    rw [Nat.succ_mul]
    omega
  have hspec := warpRun_spec I J V x E isz tail w hmon h32i h32t hw hE
  refine ⟨?_, ?_, ?_⟩
  · rw [temp_rows, hspec, carrySpec_of_lt I J V x _ _ hbe]
  · rw [temp_vals, hspec, carrySpec_of_lt I J V x _ _ hbe]
    rfl
  · intro j hj
    rw [runCover, Finset.mem_Ico] at hj
    exact segStart_mem I (min ((w + 1) * isz) tail - 1) j (by omega) (by omega)

/-! ## Transporting exact accounting along an index shift -/

theorem listUnion_map_image (C : List (Finset Nat)) (f : Nat → Nat) :
    listUnion (C.map (Finset.image f)) = (listUnion C).image f := by
  induction C with
  | nil => simp [listUnion]
  | cons c C ih =>
      rw [List.map_cons, listUnion_cons, listUnion_cons, ih, Finset.image_union]

theorem covers_shift (ridx v ridx' v' : Nat → Int) (base : Nat)
    (E : List (Int × Int)) (C : List (Finset Nat)) (S : Finset Nat)
    (h : Covers ridx v E C S)
    (hr : ∀ j ∈ S, ridx' (base + j) = ridx j)
    (hv : ∀ j ∈ S, v' (base + j) = v j) :
    Covers ridx' v' E (C.map (Finset.image (fun j => base + j)))
      (S.image (fun j => base + j)) := by
  have hinj : Function.Injective (fun j : Nat => base + j) := fun a b hab => by
    simpa using hab
  obtain ⟨hl, hp, hu, hk⟩ := h
  have hsub : ∀ c ∈ C, c ⊆ S := fun c hc => hu ▸ subset_listUnion C c hc
  refine ⟨by simp [hl], ?_, ?_, ?_⟩
  · rw [List.pairwise_map]
    exact hp.imp (fun hd => (Finset.disjoint_image hinj).mpr hd)
  · rw [listUnion_map_image, hu]
  · intro k hk'
    have hmain := hk k hk'
    have hgd : (C.map (Finset.image (fun j => base + j))).getD k ∅
        = (C.getD k ∅).image (fun j => base + j) := by
      rcases Nat.lt_or_ge k C.length with hlt | hge
      · rw [List.getD_eq_getElem _ _ (by simpa using hlt), List.getD_eq_getElem _ _ hlt]
        simp
      · rw [List.getD_eq_default _ _ (by simpa using hge), List.getD_eq_default _ _ hge]
        simp
    rw [hgd]
    have hcs : C.getD k ∅ ⊆ S := by
      rcases Nat.lt_or_ge k C.length with hlt | hge
      · refine hsub _ ?_
        rw [List.getD_eq_getElem _ _ hlt]
        exact List.getElem_mem _
      · rw [List.getD_eq_default _ _ hge]
        exact Finset.empty_subset _
    constructor
    · rw [hmain.1, Finset.sum_image (fun a _ b _ hab => hinj hab)]
      exact (Finset.sum_congr rfl (fun j hj => hv j (hcs hj))).symm
    · intro j hj
      rw [Finset.mem_image] at hj
      obtain ⟨j₀, hj₀, rfl⟩ := hj
      rw [hr j₀ (hcs hj₀)]
      exact hmain.2 j₀ hj₀

/-! ## Correctness of the level-2 reduce-update kernel -/

theorem padRows_runsOn (trows : Nat → Int) (base cnt : Nat) (hcnt512 : cnt ≤ 512)
    (hmon : ∀ a b', a ≤ b' → b' < cnt → trows (base + a) ≤ trows (base + b'))
    (hnn : ∀ a, a < cnt → 0 ≤ trows (base + a)) :
    RunsOn (padRows trows base cnt) 512 := by
  intro a b c hab hbc hc hac
  by_cases hcl : c < cnt
  · have ha : a < cnt := by omega
    have hb : b < cnt := by omega
    simp only [padRows, if_pos ha, if_pos hb, if_pos hcl] at hac ⊢
    have h₁ := hmon a b hab hb
    have h₂ := hmon b c hbc hcl
    omega
  · have hcr : padRows trows base cnt c = -1 := by
      simp only [padRows, if_neg hcl]
    by_cases hal : a < cnt
    · exfalso
      have : padRows trows base cnt a = trows (base + a) := by
        simp only [padRows, if_pos hal]
      have hge := hnn a hal
      rw [hcr] at hac
      omega
    · have hbl : ¬ b < cnt := by omega
      simp only [padRows, if_neg hbl, if_neg hcl]

theorem reduceChunkEvents_eq (trows tvals : Nat → Int) (base cnt : Nat)
    (hcnt : 0 < cnt) (hcnt512 : cnt ≤ 512)
    (hmon : ∀ a b', a ≤ b' → b' < cnt → trows (base + a) ≤ trows (base + b'))
    (hnn : ∀ a, a < cnt → 0 ≤ trows (base + a)) :
    reduceChunkEvents trows tvals base cnt
      = termEvents (padRows trows base cnt) (padVals tvals base cnt) 0 cnt
        ++ [(padRows trows base cnt (cnt - 1),
             G (padRows trows base cnt) (padVals tvals base cnt) 0 (cnt - 1))] := by
  have hruns := padRows_runsOn trows base cnt hcnt512 hmon hnn
  have hscan : ∀ p, p < cnt →
      segreduce_block (padRows trows base cnt) (padVals tvals base cnt) p
        = G (padRows trows base cnt) (padVals tvals base cnt) 0 p := by
    intro p hp
    rw [segreduce_block_correct _ _ 512 hruns (le_refl _) p (by omega)]
    rw [G, show max 0 (segStart (padRows trows base cnt) p) = segStart (padRows trows base cnt) p by omega]
  have hrowsnn : ∀ p, p < cnt → 0 ≤ padRows trows base cnt p := by
    intro p hp
    simp only [padRows, if_pos hp]
    exact hnn p hp
  have hsent : ∀ p, cnt ≤ p → padRows trows base cnt p = -1 := by
    intro p hp
    simp only [padRows, if_neg (by omega : ¬ p < cnt)]
  -- the 512 lanes: [0, cnt-1), then lane cnt-1, then the padding lanes
  rw [reduceChunkEvents, List.range_eq_range']
  have hsplit : List.range' 0 512
      = (List.range' 0 (cnt - 1) ++ [cnt - 1]) ++ List.range' cnt (512 - cnt) := by
    have h1 : List.range' 0 (cnt - 1) ++ [0 + (cnt - 1)] = List.range' 0 (cnt - 1 + 1) :=
      (List.range'_1_concat 0 (cnt - 1)).symm
    rw [show (0 : Nat) + (cnt - 1) = cnt - 1 by omega] at h1
    rw [h1, show cnt - 1 + 1 = cnt by omega]
    have h2 := List.range'_append_1 0 cnt (512 - cnt)
    rw [show (0 : Nat) + cnt = cnt by omega] at h2
    rw [h2]
    congr 1
    omega
  rw [hsplit, List.filterMap_append, List.filterMap_append]
  have hpad : List.filterMap (fun t =>
      if t < cnt ∧ padRows trows base cnt t ≠ padRows trows base cnt (t + 1)
      then some (padRows trows base cnt t,
        segreduce_block (padRows trows base cnt) (padVals tvals base cnt) t)
      else none) (List.range' cnt (512 - cnt)) = [] := by
    rw [List.filterMap_eq_nil_iff]
    intro p hp
    rw [List.mem_range'_1] at hp
    rw [if_neg (by push_neg; intro hcon; omega)]
  rw [hpad, List.append_nil]
  congr 1
  · -- the terminations strictly before the last valid lane
    rw [termEvents, termList]
    rw [show cnt - 1 - 0 = cnt - 1 by omega]
    apply filterMap_congr_on
    intro t hmem
    rw [List.mem_range'_1] at hmem
    have ht : t < cnt := by omega
    by_cases hterm : padRows trows base cnt t ≠ padRows trows base cnt (t + 1)
    · rw [if_pos ⟨ht, hterm⟩, if_pos hterm, hscan t ht]
    · rw [if_neg (by intro hcon; exact hterm hcon.2), if_neg hterm]
  · -- the last valid lane always terminates against the sentinel
    have hterm : padRows trows base cnt (cnt - 1) ≠ padRows trows base cnt (cnt - 1 + 1) := by
      rw [show cnt - 1 + 1 = cnt by omega, hsent cnt (le_refl cnt)]
      have := hrowsnn (cnt - 1) (by omega)
      omega
    apply filterMap_singleton_of_some
    rw [if_pos ⟨by omega, hterm⟩, hscan (cnt - 1) (by omega)]

theorem reduceChunk_coversSome (trows tvals : Nat → Int) (base cnt : Nat)
    (hcnt : 0 < cnt) (hcnt512 : cnt ≤ 512)
    (hmon : ∀ a b', a ≤ b' → b' < cnt → trows (base + a) ≤ trows (base + b'))
    (hnn : ∀ a, a < cnt → 0 ≤ trows (base + a)) :
    ∃ C, Covers trows tvals (reduceChunkEvents trows tvals base cnt) C
      (Finset.Ico base (base + cnt)) := by
  have hpart := warpPartition (padRows trows base cnt) (padVals tvals base cnt) 0 cnt hcnt
  rw [← reduceChunkEvents_eq trows tvals base cnt hcnt hcnt512 hmon hnn] at hpart
  have hsh := covers_shift (padRows trows base cnt) (padVals tvals base cnt)
    trows tvals base _ _ _ hpart
    (by
      intro j hj
      rw [Finset.mem_Ico] at hj
      simp only [padRows, if_pos hj.2])
    (by
      intro j hj
      rw [Finset.mem_Ico] at hj
      simp only [padVals, if_pos hj.2])
  have himg : (Finset.Ico 0 cnt).image (fun j => base + j) = Finset.Ico base (base + cnt) := by
    ext j
    simp only [Finset.mem_image, Finset.mem_Ico]
    constructor
    · rintro ⟨j₀, hj₀, rfl⟩; omega
    · intro hj; exact ⟨j - base, by omega, by omega⟩
  rw [himg] at hsh
  exact ⟨_, hsh⟩

theorem reduce_coversSome (nw : Nat) (trows tvals : Nat → Int)
    (hmon : ∀ a b, a ≤ b → b < nw → trows a ≤ trows b)
    (hnn : ∀ a, a < nw → 0 ≤ trows a) :
    ∃ C, Covers trows tvals (reduceEvents nw trows tvals) C (Finset.Ico 0 nw) := by
  have hchunks : ∀ k, k * 512 ≤ nw - nw % 512 → ∃ C, Covers trows tvals
      ((List.range k).flatMap (fun c => reduceChunkEvents trows tvals (c * 512) 512)) C
      (Finset.Ico 0 (k * 512)) := by
    intro k
    induction k with
    | zero =>
        intro _
        refine ⟨[], ?_⟩
        rw [show Finset.Ico 0 (0 * 512) = (∅ : Finset Nat) by simp]
        exact covers_nil trows tvals
    | succ k ih =>
        intro hk
        obtain ⟨C1, h1⟩ := ih (by omega)
        obtain ⟨C2, h2⟩ := reduceChunk_coversSome trows tvals (k * 512) 512
          (by norm_num) (le_refl 512)
          (fun a b' hab hb' => hmon (k * 512 + a) (k * 512 + b') (by omega) (by omega))
          (fun a ha => hnn (k * 512 + a) (by omega))
        have happ := covers_append trows tvals _ _ C1 C2 _ _ h1 h2
          (Finset.Ico_disjoint_Ico_consecutive 0 (k * 512) (k * 512 + 512))
        rw [Finset.Ico_union_Ico_eq_Ico (by omega) (by omega)] at happ
        refine ⟨C1 ++ C2, ?_⟩
        rw [List.range_succ, List.flatMap_append]
        simp only [List.flatMap_cons, List.flatMap_nil, List.append_nil]
        rw [show (k + 1) * 512 = k * 512 + 512 by ring]
        exact happ
  have hdvd : (nw - nw % 512) / 512 * 512 = nw - nw % 512 := by omega
  obtain ⟨C1, h1⟩ := hchunks ((nw - nw % 512) / 512) (by omega)
  rw [hdvd] at h1
  rw [reduceEvents]
  by_cases hlast : nw - nw % 512 < nw
  · obtain ⟨C2, h2⟩ := reduceChunk_coversSome trows tvals (nw - nw % 512) (nw % 512)
      (by omega) (by omega)
      (fun a b' hab hb' => hmon _ _ (by omega) (by omega))
      (fun a ha => hnn _ (by omega))
    rw [show nw - nw % 512 + nw % 512 = nw by omega] at h2
    have happ := covers_append trows tvals _ _ C1 C2 _ _ h1 h2
      (Finset.Ico_disjoint_Ico_consecutive 0 (nw - nw % 512) nw)
    rw [Finset.Ico_union_Ico_eq_Ico (by omega) (by omega)] at happ
    rw [if_pos hlast]
    exact ⟨C1 ++ C2, happ⟩
  · rw [if_neg hlast]
    have hnweq : nw - nw % 512 = nw := by omega
    rw [show Finset.Ico 0 (nw - nw % 512) = Finset.Ico 0 nw by rw [hnweq]] at h1
    exact ⟨C1, by simpa using h1⟩

/-! ## The sequential tail handler accounts for its slice -/

theorem serial_coversSome (m : COOMatrix) (x : Int → Int) :
    ∀ d o, m.num_entries - o ≤ d →
    ∃ C, Covers m.rowA (prodAt m.colA m.valA x) (serialEvents (m.entries.drop o) x) C
      (Finset.Ico o m.num_entries) := by
  intro d
  induction d with
  | zero =>
      intro o ho
      have hdrop : m.entries.drop o = [] := List.drop_eq_nil_of_le (by
        have h : m.num_entries = m.entries.length := rfl
        omega)
      rw [hdrop]
      refine ⟨[], ?_⟩
      rw [show Finset.Ico o m.num_entries = (∅ : Finset Nat) from
        Finset.Ico_eq_empty (by omega)]
      exact covers_nil _ _
  | succ d ih =>
      intro o ho
      by_cases hlt : o < m.num_entries
      · have hlt' : o < m.entries.length := hlt
        have hdrop : m.entries.drop o = m.entries[o] :: m.entries.drop (o + 1) :=
          List.drop_eq_getElem_cons hlt'
        rw [hdrop, serialEvents, List.map_cons]
        obtain ⟨C, hC⟩ := ih (o + 1) (by omega)
        have hhead : Covers m.rowA (prodAt m.colA m.valA x)
            [(m.entries[o].1, m.entries[o].2.2 * x m.entries[o].2.1)]
            [{o}] {o} := by
          refine covers_singleton _ _ _ _ ?_ ?_
          · rw [Finset.sum_singleton]
            show m.entries[o].2.2 * x m.entries[o].2.1
              = m.valA o * x (m.colA o)
            rw [COOMatrix.valA, COOMatrix.colA, List.getD_eq_getElem _ _ hlt']
          · intro j hj
            rw [Finset.mem_singleton] at hj
            subst hj
            show m.rowA j = m.entries[j].1
            rw [COOMatrix.rowA, List.getD_eq_getElem _ _ hlt']
        have happ := covers_append _ _ _ _ _ _ _ _ hhead (by
          rw [serialEvents] at hC
          exact hC)
          (by
            rw [Finset.disjoint_left]
            intro a ha hb
            rw [Finset.mem_singleton] at ha
            rw [Finset.mem_Ico] at hb
            omega)
        have hun : {o} ∪ Finset.Ico (o + 1) m.num_entries = Finset.Ico o m.num_entries := by
          ext j
          simp only [Finset.mem_union, Finset.mem_singleton, Finset.mem_Ico]
          omega
        rw [hun] at happ
        exact ⟨[{o}] ++ C, by simpa using happ⟩
      · have hdrop : m.entries.drop o = [] := List.drop_eq_nil_of_le (by
          have h : m.num_entries = m.entries.length := rfl
          omega)
        rw [hdrop]
        refine ⟨[], ?_⟩
        rw [show Finset.Ico o m.num_entries = (∅ : Finset Nat) from
          Finset.Ico_eq_empty (by omega)]
        exact covers_nil _ _

/-! ## Aggregating the warps of a kernel launch -/

/-- The entry positions whose accumulation the deferred kernel performs
directly for warp w (its interval minus the trailing run left to the carry). -/
def warpDirectSet (I : Nat → Int) (isz tail w : Nat) : Finset Nat :=
  Finset.Ico (w * isz) (min ((w + 1) * isz) tail)
    \ runCover I (w * isz) (min ((w + 1) * isz) tail - 1)

/-- The entry positions deferred through warp w's carry. -/
def warpCarrySet (I : Nat → Int) (isz tail w : Nat) : Finset Nat :=
  runCover I (w * isz) (min ((w + 1) * isz) tail - 1)

theorem warpCarrySet_subset (I : Nat → Int) (isz tail w : Nat) (hpos : 0 < isz)
    (hw : w * isz < tail) :
    warpCarrySet I isz tail w ⊆ Finset.Ico (w * isz) (min ((w + 1) * isz) tail) := by
  intro j hj
  rw [warpCarrySet, runCover, Finset.mem_Ico] at hj
  rw [Finset.mem_Ico]
  obtain ⟨hj1, hj2⟩ := hj
  have he1 : 1 ≤ min ((w + 1) * isz) tail :=
    le_min (Nat.mul_pos (by omega) hpos) (by omega)
  rw [Nat.sub_add_cancel he1] at hj2
  exact ⟨le_trans (le_max_left _ _) hj1, hj2⟩

theorem flatKernel_coversSome (I J V : Nat → Int) (x : Int → Int) (E isz tail : Nat)
    (hmon : ∀ a b', a ≤ b' → b' < E → I a ≤ I b')
    (h32i : isz % 32 = 0) (h32t : tail % 32 = 0) (hpos : 0 < isz) (hE : tail ≤ E) :
    ∀ aw, (∀ w, w < aw → w * isz < tail) →
    ∃ C, Covers I (prodAt J V x) (flatKernelEvents I J V x isz tail aw) C
      (Finset.biUnion (Finset.range aw) (warpDirectSet I isz tail)) := by
  intro aw
  induction aw with
  | zero =>
      intro _
      exact ⟨[], by simpa [flatKernelEvents, listUnion] using covers_nil I (prodAt J V x)⟩
  | succ k ih =>
      intro hws
      obtain ⟨C1, h1⟩ := ih (fun w hw => hws w (by omega))
      have h2 := flatWarp_covers I J V x E isz tail k hmon h32i h32t hpos
        (hws k (by omega)) hE
      have hdis : Disjoint (Finset.biUnion (Finset.range k) (warpDirectSet I isz tail))
          (warpDirectSet I isz tail k) := by
        rw [Finset.disjoint_left]
        intro j hj hjk
        rw [Finset.mem_biUnion] at hj
        obtain ⟨w, hw, hjw⟩ := hj
        rw [Finset.mem_range] at hw
        unfold warpDirectSet at hjw hjk
        rw [Finset.mem_sdiff, Finset.mem_Ico] at hjw hjk
        have hle : (w + 1) * isz ≤ k * isz := Nat.mul_le_mul_right isz (by omega)
        have h₁ := hjw.1.2
        have h₂ := hjk.1.1
        have : min ((w + 1) * isz) tail ≤ (w + 1) * isz := min_le_left _ _
        omega
      have h2' : Covers I (prodAt J V x) ((warpRun I J V x isz tail k).2)
          (termCovers I (k * isz) (min ((k + 1) * isz) tail))
          (warpDirectSet I isz tail k) := h2
      have happ := covers_append I (prodAt J V x) _ _ C1 _ _ _ h1 h2' hdis
      have hev : flatKernelEvents I J V x isz tail (k + 1)
          = flatKernelEvents I J V x isz tail k ++ (warpRun I J V x isz tail k).2 := by
        unfold flatKernelEvents
        rw [List.range_succ, List.flatMap_append]
        simp
      have hset : Finset.biUnion (Finset.range (k + 1)) (warpDirectSet I isz tail)
          = Finset.biUnion (Finset.range k) (warpDirectSet I isz tail)
            ∪ warpDirectSet I isz tail k := by
        rw [Finset.range_succ, Finset.biUnion_insert, Finset.union_comm]
      refine ⟨C1 ++ termCovers I (k * isz) (min ((k + 1) * isz) tail), ?_⟩
      rw [hev, hset]
      exact happ

theorem atomicKernel_coversSome (I J V : Nat → Int) (x : Int → Int) (E isz tail : Nat)
    (hmon : ∀ a b', a ≤ b' → b' < E → I a ≤ I b')
    (h32i : isz % 32 = 0) (h32t : tail % 32 = 0) (hpos : 0 < isz) (hE : tail ≤ E) :
    ∀ aw, (∀ w, w < aw → w * isz < tail) →
    ∃ C, Covers I (prodAt J V x) (atomicKernelEvents I J V x isz tail aw) C
      (Finset.biUnion (Finset.range aw)
        (fun w => Finset.Ico (w * isz) (min ((w + 1) * isz) tail))) := by
  intro aw
  induction aw with
  | zero =>
      intro _
      exact ⟨[], by simpa [atomicKernelEvents, listUnion] using covers_nil I (prodAt J V x)⟩
  | succ k ih =>
      intro hws
      obtain ⟨C1, h1⟩ := ih (fun w hw => hws w (by omega))
      have h2 := atomicWarp_covers I J V x E isz tail k hmon h32i h32t hpos
        (hws k (by omega)) hE
      have hdis : Disjoint (Finset.biUnion (Finset.range k)
          (fun w => Finset.Ico (w * isz) (min ((w + 1) * isz) tail)))
          (Finset.Ico (k * isz) (min ((k + 1) * isz) tail)) := by
        rw [Finset.disjoint_left]
        intro j hj hjk
        rw [Finset.mem_biUnion] at hj
        obtain ⟨w, hw, hjw⟩ := hj
        rw [Finset.mem_range] at hw
        rw [Finset.mem_Ico] at hjw hjk
        have hle : (w + 1) * isz ≤ k * isz := Nat.mul_le_mul_right isz (by omega)
        have : min ((w + 1) * isz) tail ≤ (w + 1) * isz := min_le_left _ _
        omega
      have happ := covers_append I (prodAt J V x) _ _ C1 _ _ _ h1 h2 hdis
      have hev : atomicKernelEvents I J V x isz tail (k + 1)
          = atomicKernelEvents I J V x isz tail k ++ atomicWarpWrites I J V x isz tail k := by
        unfold atomicKernelEvents
        rw [List.range_succ, List.flatMap_append]
        simp
      have hset : Finset.biUnion (Finset.range (k + 1))
            (fun w => Finset.Ico (w * isz) (min ((w + 1) * isz) tail))
          = Finset.biUnion (Finset.range k)
              (fun w => Finset.Ico (w * isz) (min ((w + 1) * isz) tail))
            ∪ Finset.Ico (k * isz) (min ((k + 1) * isz) tail) := by
        rw [Finset.range_succ, Finset.biUnion_insert, Finset.union_comm]
      refine ⟨C1 ++ (termCovers I (k * isz) (min ((k + 1) * isz) tail)
        ++ [runCover I (k * isz) (min ((k + 1) * isz) tail - 1)]), ?_⟩
      rw [hev, hset]
      exact happ

theorem warpIntervals_union (isz tail : Nat) (hpos : 0 < isz) :
    ∀ aw, (∀ w, w < aw → w * isz < tail) → tail ≤ aw * isz →
    Finset.biUnion (Finset.range aw)
      (fun w => Finset.Ico (w * isz) (min ((w + 1) * isz) tail))
      = Finset.Ico 0 tail := by
  have hstep : ∀ k, (∀ w, w < k → w * isz < tail) →
      Finset.biUnion (Finset.range k)
        (fun w => Finset.Ico (w * isz) (min ((w + 1) * isz) tail))
        = Finset.Ico 0 (min (k * isz) tail) := by
    intro k
    induction k with
    | zero => intro _; simp
    | succ k ih =>
        intro hws
        rw [Finset.range_succ, Finset.biUnion_insert, ih (fun w hw => hws w (by omega))]
        have hk : k * isz < tail := hws k (by omega)
        have hmk : min (k * isz) tail = k * isz := by omega
        rw [hmk, Finset.union_comm]
        refine Finset.Ico_union_Ico_eq_Ico (by omega) ?_
        have h1 : k * isz ≤ (k + 1) * isz := Nat.mul_le_mul_right isz (by omega)
        omega
  intro aw hws hcov
  rw [hstep aw hws]
  congr 1
  omega

/-! ## Arithmetic facts about the launch-parameter computation -/

theorem DIVIDE_INTO_ge_one (a b : Nat) (ha : 1 ≤ a) (hb : 1 ≤ b) :
    1 ≤ DIVIDE_INTO a b := by
  unfold DIVIDE_INTO
  rw [Nat.le_div_iff_mul_le (by omega : 0 < b)]
  omega

theorem lt_DIVIDE_INTO_mul (t i w : Nat) (hi : 0 < i) (hw : w < DIVIDE_INTO t i) :
    w * i < t := by
  unfold DIVIDE_INTO at hw
  have h1 : (w + 1) * i ≤ (t + i - 1) / i * i :=
    Nat.mul_le_mul_right i (by omega)
  have h2 : (t + i - 1) / i * i ≤ t + i - 1 := Nat.div_mul_le_self _ _
  have h3 : (w + 1) * i = w * i + i := by rw [Nat.succ_mul]
  by_cases ht : t = 0
  · subst ht
    have : (i - 1) / i = 0 := Nat.div_eq_of_lt (by omega)
    omega
  · omega

theorem DIVIDE_INTO_mul_ge (t i : Nat) (hi : 0 < i) : t ≤ DIVIDE_INTO t i * i := by
  unfold DIVIDE_INTO
  have hmod := Nat.div_add_mod (t + i - 1) i
  have hlt : (t + i - 1) % i < i := Nat.mod_lt _ hi
  have hcomm : (t + i - 1) / i * i = i * ((t + i - 1) / i) := Nat.mul_comm _ _
  omega

theorem flatPlan_num_units (n U : Nat) : (flatPlan n U).num_units = n / 32 := rfl

theorem flatPlan_num_warps (n U : Nat) : (flatPlan n U).num_warps = min (n / 32) U := rfl

theorem flatPlan_num_iters (n U : Nat) :
    (flatPlan n U).num_iters = DIVIDE_INTO (n / 32) (min (n / 32) U) := rfl

theorem flatPlan_interval_size (n U : Nat) :
    (flatPlan n U).interval_size = 32 * (flatPlan n U).num_iters := rfl

theorem flatPlan_tail (n U : Nat) : (flatPlan n U).tail = (n / 32) * 32 := rfl

theorem flatPlan_active_warps_eq (n U : Nat) (h : (flatPlan n U).interval_size ≠ 0) :
    (flatPlan n U).active_warps
      = DIVIDE_INTO (flatPlan n U).tail (flatPlan n U).interval_size := by
  show (if (flatPlan n U).interval_size = 0 then 0 else DIVIDE_INTO _ _) = _
  rw [if_neg h]
  rfl

theorem flatPlan_facts (n U : Nat) (hn : 32 ≤ n) (hU : 1 ≤ U) :
    (flatPlan n U).interval_size % 32 = 0 ∧
    0 < (flatPlan n U).interval_size ∧
    (flatPlan n U).tail % 32 = 0 ∧
    (flatPlan n U).tail ≤ n ∧
    32 ≤ (flatPlan n U).tail ∧
    n - (flatPlan n U).tail < 32 ∧
    (∀ w, w < (flatPlan n U).active_warps →
      w * (flatPlan n U).interval_size < (flatPlan n U).tail) ∧
    (flatPlan n U).tail ≤ (flatPlan n U).active_warps * (flatPlan n U).interval_size := by
  have hu1 : 1 ≤ n / 32 := by omega
  have hw1 : 1 ≤ min (n / 32) U := le_min hu1 hU
  have hi1 : 1 ≤ (flatPlan n U).num_iters := by
    rw [flatPlan_num_iters]
    exact DIVIDE_INTO_ge_one _ _ hu1 hw1
  have hipos : 0 < (flatPlan n U).interval_size := by
    rw [flatPlan_interval_size]
    omega
  have hine : (flatPlan n U).interval_size ≠ 0 := by omega
  have haw := flatPlan_active_warps_eq n U hine
  refine ⟨?_, hipos, ?_, ?_, ?_, ?_, ?_, ?_⟩
  · rw [flatPlan_interval_size]
    omega
  · rw [flatPlan_tail]
    omega
  · rw [flatPlan_tail]
    omega
  · rw [flatPlan_tail]
    omega
  · rw [flatPlan_tail]
    omega
  · intro w hw
    rw [haw] at hw
    exact lt_DIVIDE_INTO_mul _ _ w hipos hw
  · rw [haw]
    exact DIVIDE_INTO_mul_ge _ _ hipos

/-! ## The complete event streams of the two drivers -/

/-- Every accumulation into y performed by the deferred-reduction multiply on
the parallel path, in order: level-1 kernel, sequential tail handler, level-2
reduce-update kernel. -/
def flatEvents (U : Nat) (m : COOMatrix) (x : Int → Int) : List (Int × Int) :=
  flatKernelEvents m.rowA m.colA m.valA x (flatPlan m.num_entries U).interval_size
      (flatPlan m.num_entries U).tail (flatPlan m.num_entries U).active_warps
  ++ serialEvents (m.entries.drop (flatPlan m.num_entries U).tail) x
  ++ reduceEvents (flatPlan m.num_entries U).active_warps
      (temp_rows m.rowA m.colA m.valA x (flatPlan m.num_entries U).interval_size
        (flatPlan m.num_entries U).tail)
      (temp_vals m.rowA m.colA m.valA x (flatPlan m.num_entries U).interval_size
        (flatPlan m.num_entries U).tail)

/-- Every accumulation into y performed by the atomic multiply on the parallel
path: atomic level-1 kernel, then sequential tail handler. -/
def atomicEvents (U : Nat) (m : COOMatrix) (x : Int → Int) : List (Int × Int) :=
  atomicKernelEvents m.rowA m.colA m.valA x (flatPlan m.num_entries U).interval_size
      (flatPlan m.num_entries U).tail (flatPlan m.num_entries U).active_warps
  ++ serialEvents (m.entries.drop (flatPlan m.num_entries U).tail) x

theorem __spmv_coo_flat_eq_applyWrites (useCache : Bool) (U : Nat) (m : COOMatrix)
    (x : Int → Int) (y : Int → Int) (h0 : m.num_entries ≠ 0)
    (hn : ¬ m.num_entries < WARP_SIZE) :
    __spmv_coo_flat useCache U m x y = applyWrites y (flatEvents U m x) := by
  unfold __spmv_coo_flat
  rw [if_neg h0, if_neg hn]
  show spmv_coo_reduce_update_kernel _ _ _
    (spmv_coo_serial_kernel _ x (applyWrites y _)) = _
  rw [spmv_coo_serial_kernel_eq]
  unfold spmv_coo_reduce_update_kernel flatEvents
  rw [applyWrites_append, applyWrites_append]
  rfl

theorem __spmv_coo_flat_atomic_eq_applyWrites (useCache : Bool) (U : Nat) (m : COOMatrix)
    (x : Int → Int) (y : Int → Int) (h0 : m.num_entries ≠ 0)
    (hn : ¬ m.num_entries < WARP_SIZE) :
    __spmv_coo_flat_atomic useCache U m x y = applyWrites y (atomicEvents U m x) := by
  unfold __spmv_coo_flat_atomic
  rw [if_neg h0, if_neg hn]
  show spmv_coo_serial_kernel _ x (applyWrites y _) = _
  rw [spmv_coo_serial_kernel_eq]
  unfold atomicEvents
  rw [applyWrites_append]
  rfl

theorem biUnion_union_distrib (s : Finset Nat) (f g : Nat → Finset Nat) :
    s.biUnion f ∪ s.biUnion g = s.biUnion (fun a => f a ∪ g a) := by
  ext x
  simp only [Finset.mem_union, Finset.mem_biUnion]
  constructor
  · rintro (⟨a, ha, hx⟩ | ⟨a, ha, hx⟩)
    · exact ⟨a, ha, Or.inl hx⟩
    · exact ⟨a, ha, Or.inr hx⟩
  · rintro ⟨a, ha, hx | hx⟩
    · exact Or.inl ⟨a, ha, hx⟩
    · exact Or.inr ⟨a, ha, hx⟩

/-- Every entry position of a row-sorted matrix with at least one full warp of
entries is accounted for by exactly one accumulation event of the
deferred-reduction multiply. -/
theorem flatEvents_covers (U : Nat) (m : COOMatrix) (x : Int → Int)
    (hU : 1 ≤ U) (hsort : m.RowSorted) (hnn : m.RowsNonneg) (hn : 32 ≤ m.num_entries) :
    ∃ C, Covers m.rowA (prodAt m.colA m.valA x) (flatEvents U m x) C
      (Finset.range m.num_entries) := by
  obtain ⟨hf1, hf2, hf3, hf4, hf5, hf6, hf7, hf8⟩ :=
    flatPlan_facts m.num_entries U (by omega) hU
  have hmon : ∀ a b', a ≤ b' → b' < m.num_entries → m.rowA a ≤ m.rowA b' :=
    fun a b' hab hb' => hsort b' hb' a hab
  set isz := (flatPlan m.num_entries U).interval_size with hisz
  set tl := (flatPlan m.num_entries U).tail with htl
  set aw := (flatPlan m.num_entries U).active_warps with haw
  obtain ⟨CK, hK⟩ := flatKernel_coversSome m.rowA m.colA m.valA x m.num_entries isz tl
    hmon hf1 hf3 hf2 hf4 aw hf7
  obtain ⟨CS, hS⟩ := serial_coversSome m x m.num_entries tl (by omega)
  have hranges : ∀ w, w < aw → min ((w + 1) * isz) tl - 1 < m.num_entries := by
    intro w hw
    have h1 : min ((w + 1) * isz) tl ≤ tl := min_le_right _ _
    omega
  have hts : ∀ w, w < aw →
      temp_rows m.rowA m.colA m.valA x isz tl w = m.rowA (min ((w + 1) * isz) tl - 1) ∧
      temp_vals m.rowA m.colA m.valA x isz tl w
        = ∑ j ∈ warpCarrySet m.rowA isz tl w, prodAt m.colA m.valA x j ∧
      ∀ j ∈ warpCarrySet m.rowA isz tl w, m.rowA j = m.rowA (min ((w + 1) * isz) tl - 1) :=
    fun w hw => temp_spec m.rowA m.colA m.valA x m.num_entries isz tl w
      hmon hf1 hf3 hf2 (hf7 w hw) hf4
  have htmono : ∀ a b, a ≤ b → b < aw →
      temp_rows m.rowA m.colA m.valA x isz tl a ≤ temp_rows m.rowA m.colA m.valA x isz tl b := by
    intro a b hab hb
    rw [(hts a (by omega)).1, (hts b hb).1]
    apply hmon
    · have h1 : (a + 1) * isz ≤ (b + 1) * isz := Nat.mul_le_mul_right isz (by omega)
      have h2 : min ((a + 1) * isz) tl ≤ min ((b + 1) * isz) tl := by omega
      omega
    · exact hranges b hb
  have htnn : ∀ a, a < aw → 0 ≤ temp_rows m.rowA m.colA m.valA x isz tl a := by
    intro a ha
    rw [(hts a ha).1]
    exact hnn _ (hranges a ha)
  obtain ⟨CRt, hRt⟩ := reduce_coversSome aw
    (temp_rows m.rowA m.colA m.valA x isz tl)
    (temp_vals m.rowA m.colA m.valA x isz tl) htmono htnn
  have hfamdis : ∀ i₁ ∈ Finset.Ico 0 aw, ∀ i₂ ∈ Finset.Ico 0 aw, i₁ ≠ i₂ →
      Disjoint (warpCarrySet m.rowA isz tl i₁) (warpCarrySet m.rowA isz tl i₂) := by
    intro i₁ h₁ i₂ h₂ hne
    rw [Finset.mem_Ico] at h₁ h₂
    rw [Finset.disjoint_left]
    intro j hj₁ hj₂
    have hs₁ := warpCarrySet_subset m.rowA isz tl i₁ hf2 (hf7 i₁ h₁.2) hj₁
    have hs₂ := warpCarrySet_subset m.rowA isz tl i₂ hf2 (hf7 i₂ h₂.2) hj₂
    rw [Finset.mem_Ico] at hs₁ hs₂
    rcases Nat.lt_or_ge i₁ i₂ with h | h
    · have hmul : (i₁ + 1) * isz ≤ i₂ * isz := Nat.mul_le_mul_right isz (by omega)
      have hm : min ((i₁ + 1) * isz) tl ≤ (i₁ + 1) * isz := min_le_left _ _
      omega
    · have hlt : i₂ < i₁ := by omega
      have hmul : (i₂ + 1) * isz ≤ i₁ * isz := Nat.mul_le_mul_right isz (by omega)
      have hm : min ((i₂ + 1) * isz) tl ≤ (i₂ + 1) * isz := min_le_left _ _
      omega
  have hcomp := covers_compose m.rowA (prodAt m.colA m.valA x)
    (temp_rows m.rowA m.colA m.valA x isz tl)
    (temp_vals m.rowA m.colA m.valA x isz tl) _ _ _
    (warpCarrySet m.rowA isz tl) hRt hfamdis
    (by
      intro i hi
      rw [Finset.mem_Ico] at hi
      exact (hts i hi.2).2.1)
    (by
      intro i hi j hj
      rw [Finset.mem_Ico] at hi
      rw [(hts i hi.2).1]
      exact (hts i hi.2).2.2 j hj)
  have hdisKS : Disjoint
      (Finset.biUnion (Finset.range aw) (warpDirectSet m.rowA isz tl))
      (Finset.Ico tl m.num_entries) := by
    rw [Finset.disjoint_left]
    intro j hj hj'
    rw [Finset.mem_biUnion] at hj
    obtain ⟨w, hw, hjw⟩ := hj
    rw [Finset.mem_range] at hw
    unfold warpDirectSet at hjw
    rw [Finset.mem_sdiff, Finset.mem_Ico] at hjw
    rw [Finset.mem_Ico] at hj'
    have hm : min ((w + 1) * isz) tl ≤ tl := min_le_right _ _
    omega
  have hKS := covers_append _ _ _ _ _ _ _ _ hK hS hdisKS
  have hdisR : Disjoint
      ((Finset.biUnion (Finset.range aw) (warpDirectSet m.rowA isz tl))
        ∪ Finset.Ico tl m.num_entries)
      ((Finset.Ico 0 aw).biUnion (warpCarrySet m.rowA isz tl)) := by
    rw [Finset.disjoint_left]
    intro j hj hjT
    rw [Finset.mem_biUnion] at hjT
    obtain ⟨w, hw, hjw⟩ := hjT
    rw [Finset.mem_Ico] at hw
    have hsw := warpCarrySet_subset m.rowA isz tl w hf2 (hf7 w hw.2) hjw
    rw [Finset.mem_Ico] at hsw
    rw [Finset.mem_union] at hj
    rcases hj with hj | hj
    · rw [Finset.mem_biUnion] at hj
      obtain ⟨w', hw', hjw'⟩ := hj
      rw [Finset.mem_range] at hw'
      unfold warpDirectSet at hjw'
      rw [Finset.mem_sdiff, Finset.mem_Ico] at hjw'
      by_cases heq : w = w'
      · subst heq
        exact hjw'.2 hjw
      · rcases Nat.lt_or_ge w w' with h | h
        · have hmul : (w + 1) * isz ≤ w' * isz := Nat.mul_le_mul_right isz (by omega)
          have hm : min ((w + 1) * isz) tl ≤ (w + 1) * isz := min_le_left _ _
          omega
        · have hlt : w' < w := by omega
          have hmul : (w' + 1) * isz ≤ w * isz := Nat.mul_le_mul_right isz (by omega)
          have hm : min ((w' + 1) * isz) tl ≤ (w' + 1) * isz := min_le_left _ _
          omega
    · rw [Finset.mem_Ico] at hj
      have hm : min ((w + 1) * isz) tl ≤ tl := min_le_right _ _
      omega
  have htotal := covers_append _ _ _ _ _ _ _ _ hKS hcomp hdisR
  have hsets : ((Finset.biUnion (Finset.range aw) (warpDirectSet m.rowA isz tl))
        ∪ Finset.Ico tl m.num_entries)
      ∪ ((Finset.Ico 0 aw).biUnion (warpCarrySet m.rowA isz tl))
      = Finset.range m.num_entries := by
    have h1 : Finset.Ico 0 aw = Finset.range aw := by
      rw [Finset.range_eq_Ico]
    rw [h1, Finset.union_right_comm, biUnion_union_distrib]
    have h2 : ∀ w ∈ Finset.range aw,
        warpDirectSet m.rowA isz tl w ∪ warpCarrySet m.rowA isz tl w
          = Finset.Ico (w * isz) (min ((w + 1) * isz) tl) := by
      intro w hw
      rw [Finset.mem_range] at hw
      unfold warpDirectSet warpCarrySet
      exact Finset.sdiff_union_of_subset (warpCarrySet_subset m.rowA isz tl w hf2 (hf7 w hw))
    rw [Finset.biUnion_congr rfl h2]
    rw [warpIntervals_union isz tl hf2 aw hf7 hf8]
    rw [Finset.range_eq_Ico]
    exact Finset.Ico_union_Ico_eq_Ico (by omega) (by omega)
  rw [hsets] at htotal
  exact ⟨_, htotal⟩

/-- Every entry position of a row-sorted matrix with at least one full warp of
entries is accounted for by exactly one accumulation event of the atomic
multiply. -/
theorem atomicEvents_covers (U : Nat) (m : COOMatrix) (x : Int → Int)
    (hU : 1 ≤ U) (hsort : m.RowSorted) (hn : 32 ≤ m.num_entries) :
    ∃ C, Covers m.rowA (prodAt m.colA m.valA x) (atomicEvents U m x) C
      (Finset.range m.num_entries) := by
  obtain ⟨hf1, hf2, hf3, hf4, hf5, hf6, hf7, hf8⟩ :=
    flatPlan_facts m.num_entries U (by omega) hU
  have hmon : ∀ a b', a ≤ b' → b' < m.num_entries → m.rowA a ≤ m.rowA b' :=
    fun a b' hab hb' => hsort b' hb' a hab
  set isz := (flatPlan m.num_entries U).interval_size with hisz
  set tl := (flatPlan m.num_entries U).tail with htl
  set aw := (flatPlan m.num_entries U).active_warps with haw
  obtain ⟨CK, hK⟩ := atomicKernel_coversSome m.rowA m.colA m.valA x m.num_entries isz tl
    hmon hf1 hf3 hf2 hf4 aw hf7
  obtain ⟨CS, hS⟩ := serial_coversSome m x m.num_entries tl (by omega)
  rw [warpIntervals_union isz tl hf2 aw hf7 hf8] at hK
  have hdis : Disjoint (Finset.Ico 0 tl) (Finset.Ico tl m.num_entries) :=
    Finset.Ico_disjoint_Ico_consecutive 0 tl m.num_entries
  have htotal := covers_append _ _ _ _ _ _ _ _ hK hS hdis
  rw [Finset.Ico_union_Ico_eq_Ico (by omega) (by omega)] at htotal
  rw [← Finset.range_eq_Ico] at htotal
  exact ⟨_, htotal⟩

/-! ## Row sums -/

theorem covers_rowSum (m : COOMatrix) (x : Int → Int) (E : List (Int × Int))
    (C : List (Finset Nat))
    (h : Covers m.rowA (prodAt m.colA m.valA x) E C (Finset.range m.num_entries))
    (r : Int) : sumAt E r = rowSum m x r := by
  rw [covers_sumAt _ _ _ _ _ h r, rowSum]
  rfl

theorem serialEvents_rowSum (m : COOMatrix) (x : Int → Int) (r : Int) :
    sumAt (serialEvents m.entries x) r = rowSum m x r := by
  obtain ⟨C, hC⟩ := serial_coversSome m x m.num_entries 0 (by omega)
  rw [List.drop_zero] at hC
  rw [show Finset.Ico 0 m.num_entries = Finset.range m.num_entries by
    rw [Finset.range_eq_Ico]] at hC
  exact covers_rowSum m x _ _ hC r

theorem flat_core (useCache : Bool) (U : Nat) (m : COOMatrix) (x y : Int → Int)
    (hU : 1 ≤ U) (hsort : m.RowSorted) (hnn : m.RowsNonneg) :
    ∀ r, __spmv_coo_flat useCache U m x y r = y r + rowSum m x r := by
  intro r
  by_cases h0 : m.num_entries = 0
  · unfold __spmv_coo_flat
    rw [if_pos h0]
    have hz : rowSum m x r = 0 := by
      rw [rowSum, h0]
      simp
    rw [hz, add_zero]
  · by_cases hsm : m.num_entries < WARP_SIZE
    · unfold __spmv_coo_flat
      rw [if_neg h0, if_pos hsm]
      rw [spmv_coo_serial_kernel_eq, applyWrites_eq, serialEvents_rowSum]
    · rw [__spmv_coo_flat_eq_applyWrites useCache U m x y h0 hsm, applyWrites_eq]
      obtain ⟨C, hC⟩ := flatEvents_covers U m x hU hsort hnn (by
        unfold WARP_SIZE at hsm
        omega)
      rw [covers_rowSum m x _ _ hC r]

theorem atomic_core (useCache : Bool) (U : Nat) (m : COOMatrix) (x y : Int → Int)
    (hU : 1 ≤ U) (hsort : m.RowSorted) :
    ∀ r, __spmv_coo_flat_atomic useCache U m x y r = y r + rowSum m x r := by
  intro r
  by_cases h0 : m.num_entries = 0
  · unfold __spmv_coo_flat_atomic
    rw [if_pos h0]
    have hz : rowSum m x r = 0 := by
      rw [rowSum, h0]
      simp
    rw [hz, add_zero]
  · by_cases hsm : m.num_entries < WARP_SIZE
    · unfold __spmv_coo_flat_atomic
      rw [if_neg h0, if_pos hsm]
      rw [spmv_coo_serial_kernel_eq, applyWrites_eq, serialEvents_rowSum]
    · rw [__spmv_coo_flat_atomic_eq_applyWrites useCache U m x y h0 hsm, applyWrites_eq]
      obtain ⟨C, hC⟩ := atomicEvents_covers U m x hU hsort (by
        unfold WARP_SIZE at hsm
        omega)
      rw [covers_rowSum m x _ _ hC r]

/-! ## Further shared lemmas -/

theorem DIVIDE_INTO_le (a b k : Nat) (hb : 0 < b) (h : a ≤ k * b) :
    DIVIDE_INTO a b ≤ k := by
  unfold DIVIDE_INTO
  rw [Nat.div_le_iff_le_mul_add_pred hb]
  have hc : k * b = b * k := Nat.mul_comm k b
  omega

theorem mem_termList {α : Type _} (ridx : Nat → Int) (pay : Nat → α) (b e : Nat)
    (a : α) (h : a ∈ termList ridx pay b e) :
    ∃ p, b ≤ p ∧ p + 1 ≤ e - 1 ∧ ridx p ≠ ridx (p + 1) ∧ a = pay p := by
  rw [termList, List.mem_filterMap] at h
  obtain ⟨p, hp, hsome⟩ := h
  rw [List.mem_range'_1] at hp
  by_cases hg : ridx p ≠ ridx (p + 1)
  · rw [if_pos hg] at hsome
    exact ⟨p, hp.1, by omega, hg, (Option.some_inj.mp hsome).symm⟩
  · rw [if_neg hg] at hsome
    cases hsome

theorem sumAt_reverse (l : List (Int × Int)) (r : Int) :
    sumAt l.reverse r = sumAt l r := by
  rw [sumAt, sumAt, List.map_reverse, List.sum_reverse]

theorem compressFold_sum (l : List (Int × Int)) : ∀ acc r,
    sumAt (l.foldl compressFold acc) r = sumAt acc r + sumAt l r := by
  induction l with
  | nil =>
      intro acc r
      rw [List.foldl_nil, sumAt_nil, add_zero]
  | cons e l ih =>
      intro acc r
      rw [List.foldl_cons, ih, sumAt_cons]
      have hstep : sumAt (compressFold acc e) r
          = sumAt acc r + (if e.1 = r then e.2 else 0) := by
        cases acc with
        | nil =>
            show sumAt [e] r = sumAt [] r + (if e.1 = r then e.2 else 0)
            rw [sumAt_cons, sumAt_nil]
            ring
        | cons a rest =>
            show sumAt (if a.1 = e.1 then (a.1, a.2 + e.2) :: rest else e :: a :: rest) r
                = sumAt (a :: rest) r + (if e.1 = r then e.2 else 0)
            by_cases hae : a.1 = e.1
            · rw [if_pos hae]
              have hL : sumAt ((a.1, a.2 + e.2) :: rest) r
                  = (if a.1 = r then a.2 + e.2 else 0) + sumAt rest r := rfl
              rw [hL, sumAt_cons]
              by_cases har : a.1 = r
              · rw [if_pos har, if_pos har, if_pos (show e.1 = r from hae ▸ har)]
                ring
              · rw [if_neg har, if_neg har,
                  if_neg (show ¬ e.1 = r from fun he => har (hae.trans he))]
                ring
            · rw [if_neg hae, sumAt_cons, sumAt_cons]
              ring
      rw [hstep]
      ring

theorem hostCompress_sum (l : List (Int × Int)) (r : Int) :
    sumAt (hostCompress l) r = sumAt l r := by
  rw [hostCompress, sumAt_reverse, compressFold_sum l [] r, sumAt_nil, zero_add]

theorem list_eq_map_range_getD {α : Type _} (l : List α) (d : α) :
    (List.range l.length).map (fun i => l.getD i d) = l := by
  apply List.ext_getElem
  · simp
  · intro i h1 h2
    simp only [List.getElem_map, List.getElem_range]
    exact List.getD_eq_getElem _ _ h2

theorem sum_list_range (f : Nat → Int) (n : Nat) :
    ((List.range n).map f).sum = ∑ i ∈ Finset.range n, f i := by
  induction n with
  | zero => rfl
  | succ n ih =>
      rw [List.range_succ, List.map_append, List.sum_append, Finset.sum_range_succ, ih]
      simp

theorem sumAt_map_range (f g : Nat → Int) (n : Nat) (r : Int) :
    sumAt ((List.range n).map (fun i => (f i, g i))) r
      = ∑ i ∈ Finset.range n, (if f i = r then g i else 0) := by
  rw [sumAt, List.map_map]
  exact sum_list_range _ n

theorem reduce_sumAt (nw : Nat) (trows tvals : Nat → Int)
    (hmon : ∀ a b, a ≤ b → b < nw → trows a ≤ trows b)
    (hnn : ∀ a, a < nw → 0 ≤ trows a) (r : Int) :
    sumAt (reduceEvents nw trows tvals) r
      = ∑ i ∈ Finset.range nw, (if trows i = r then tvals i else 0) := by
  obtain ⟨C, hC⟩ := reduce_coversSome nw trows tvals hmon hnn
  rw [covers_sumAt _ _ _ _ _ hC r, Finset.range_eq_Ico]

/-! ## Concrete inputs used by the witnesses -/

/-- The 3x3 matrix of the spec's worked example. -/
def exM : COOMatrix := ⟨3, 3, [(0, 0, 2), (0, 1, 3), (1, 1, 4), (2, 0, 1), (2, 2, 5)]⟩

def exX : Int → Int := fun _ => 1

def exY : Int → Int := fun _ => 0

/-- A one-row matrix with exactly one full warp of entries. -/
def exM32 : COOMatrix := ⟨1, 1, List.replicate 32 ((0 : Int), (0 : Int), (1 : Int))⟩

/-- A warp of row indices with runs of lengths 3, 2, 27. -/
def exIdx : Nat → Int := fun t => if t < 3 then 0 else if t < 5 then 1 else 2

def exVal : Nat → Int := fun _ => 1

def exEmpty : COOMatrix := ⟨4, 4, []⟩

def exTR : Nat → Int := fun _ => 0

def exTV : Nat → Int := fun _ => 7

/-! ## The claims -/

/-- C5: for num_entries = n ≥ W = 32 and a positive device limit U, the planner
of __spmv_coo_flat / __spmv_coo_flat_atomic computes num_units =
floor(n / W) (characterised by num_units * W ≤ n < (num_units + 1) * W),
num_warps = min(num_units, U), num_iters = ceil(num_units / num_warps)
(characterised as the least k with num_units ≤ k * num_warps), interval_size =
W * num_iters and tail = num_units * W; fewer than W entries remain in
[tail, n), which is the slice the drivers hand to the sequential tail
handler. -/
theorem C5_planner (n U : Nat) (hn : 32 ≤ n) (hU : 1 ≤ U) :
    ((flatPlan n U).num_units * 32 ≤ n ∧ n < ((flatPlan n U).num_units + 1) * 32) ∧
    (flatPlan n U).num_warps = min (flatPlan n U).num_units U ∧
    ((flatPlan n U).num_units ≤ (flatPlan n U).num_iters * (flatPlan n U).num_warps ∧
      ∀ k, (flatPlan n U).num_units ≤ k * (flatPlan n U).num_warps →
        (flatPlan n U).num_iters ≤ k) ∧
    (flatPlan n U).interval_size = 32 * (flatPlan n U).num_iters ∧
    (flatPlan n U).tail = (flatPlan n U).num_units * 32 ∧
    n - (flatPlan n U).tail < 32 := by
  have hu1 : 1 ≤ n / 32 := by omega
  have hw1 : 1 ≤ min (n / 32) U := le_min hu1 hU
  refine ⟨?_, rfl, ⟨?_, ?_⟩, rfl, rfl, ?_⟩
  · rw [flatPlan_num_units]
    constructor
    · exact Nat.div_mul_le_self n 32
    · omega
  · rw [flatPlan_num_iters, flatPlan_num_warps, flatPlan_num_units]
    exact DIVIDE_INTO_mul_ge _ _ (by omega)
  · intro k hk
    rw [flatPlan_num_iters]
    rw [flatPlan_num_units, flatPlan_num_warps] at hk
    exact DIVIDE_INTO_le _ _ _ (by omega) hk
  · rw [flatPlan_tail]
    omega

theorem C5_planner_witness :
    (flatPlan 100 240).num_units * 32 ≤ 100 ∧
    (flatPlan 100 240).tail = (flatPlan 100 240).num_units * 32 ∧
    100 - (flatPlan 100 240).tail < 32 := by
  have h := C5_planner 100 240 (by norm_num) (by norm_num)
  exact ⟨h.1.1, h.2.2.2.2.1, h.2.2.2.2.2⟩

/-- C8: a matrix with no entries makes each of the four multiply operations
return y unchanged (both drivers return before launching any kernel). -/
theorem C8_empty_noop (U₁ U₂ : Nat) (m : COOMatrix) (x y : Int → Int)
    (h : m.num_entries = 0) :
    spmv_coo_flat U₁ m x y = y ∧ spmv_coo_flat_tex U₁ m x y = y ∧
    spmv_coo_flat_atomic U₂ m x y = y ∧ spmv_coo_flat_atomic_tex U₂ m x y = y := by
  refine ⟨?_, ?_, ?_, ?_⟩
  · unfold spmv_coo_flat __spmv_coo_flat
    rw [if_pos h]
  · unfold spmv_coo_flat_tex __spmv_coo_flat
    rw [if_pos h]
  · unfold spmv_coo_flat_atomic __spmv_coo_flat_atomic
    rw [if_pos h]
  · unfold spmv_coo_flat_atomic_tex __spmv_coo_flat_atomic
    rw [if_pos h]

theorem C8_empty_noop_witness :
    spmv_coo_flat 2 exEmpty exX exY = exY ∧ spmv_coo_flat_atomic 3 exEmpty exX exY = exY := by
  have h := C8_empty_noop 2 3 exEmpty exX exY (by decide)
  exact ⟨h.1, h.2.2.1⟩

/-- C6: a non-empty matrix with fewer entries than one warp makes both the
deferred and the atomic multiply (and their textured variants) run the serial
tail handler on the whole entry list and nothing else, and the serial handler
computes the serial reference result y[r] + rowSum r. -/
theorem C6_small_serial (U₁ U₂ : Nat) (m : COOMatrix) (x y : Int → Int)
    (h0 : 0 < m.num_entries) (h : m.num_entries < WARP_SIZE) :
    spmv_coo_flat U₁ m x y = spmv_coo_serial_kernel m.entries x y ∧
    spmv_coo_flat_tex U₁ m x y = spmv_coo_serial_kernel m.entries x y ∧
    spmv_coo_flat_atomic U₂ m x y = spmv_coo_serial_kernel m.entries x y ∧
    spmv_coo_flat_atomic_tex U₂ m x y = spmv_coo_serial_kernel m.entries x y ∧
    ∀ r, spmv_coo_serial_kernel m.entries x y r = y r + rowSum m x r := by
  have hne : m.num_entries ≠ 0 := by omega
  refine ⟨?_, ?_, ?_, ?_, ?_⟩
  · unfold spmv_coo_flat __spmv_coo_flat
    rw [if_neg hne, if_pos h]
  · unfold spmv_coo_flat_tex __spmv_coo_flat
    rw [if_neg hne, if_pos h]
  · unfold spmv_coo_flat_atomic __spmv_coo_flat_atomic
    rw [if_neg hne, if_pos h]
  · unfold spmv_coo_flat_atomic_tex __spmv_coo_flat_atomic
    rw [if_neg hne, if_pos h]
  · intro r
    rw [spmv_coo_serial_kernel_eq, applyWrites_eq, serialEvents_rowSum]

theorem C6_small_serial_witness :
    spmv_coo_flat 3 exM exX exY = spmv_coo_serial_kernel exM.entries exX exY ∧
    spmv_coo_flat_atomic 4 exM exX exY = spmv_coo_serial_kernel exM.entries exX exY := by
  have h := C6_small_serial 3 4 exM exX exY (by decide) (by decide)
  exact ⟨h.1, h.2.2.1⟩

/-- C7: over non-decreasing row indices, segreduce_warp (Hillis-Steele rounds
at distances 1, 2, 4, 8, 16, each lane t adding the value held distance
positions earlier iff that lane has the same row index, guarded by
distance ≤ thread_lane) leaves lane t with the inclusive segmented scan: the sum
of the initial values of the lanes j ≤ t whose row index equals lane t's. -/
theorem C7_segreduce_warp_scan (idx val : Nat → Int)
    (hmon : ∀ b, b < 32 → ∀ a, a ≤ b → idx a ≤ idx b) :
    ∀ t, t < 32 → segreduce_warp idx val t
      = ∑ j ∈ Finset.range (t + 1), (if idx j = idx t then val j else 0) := by
  intro t ht
  have hr : RunsOn idx 32 :=
    runsOn_of_monotone idx 32 (fun a b hab hb => hmon b hb a hab)
  rw [segreduce_warp_correct idx val hr t ht]
  have hsle := segStart_le idx t
  rw [Finset.range_eq_Ico,
    ← Finset.sum_Ico_consecutive _ (Nat.zero_le (segStart idx t))
      (by omega : segStart idx t ≤ t + 1)]
  have h1 : ∑ j ∈ Finset.Ico 0 (segStart idx t), (if idx j = idx t then val j else 0)
      = 0 := by
    apply Finset.sum_eq_zero
    intro j hj
    rw [Finset.mem_Ico] at hj
    rw [if_neg]
    intro hcon
    have := segStart_le_of_eq idx 32 hr t j ht (by omega) hcon
    omega
  have h2 : ∑ j ∈ Finset.Ico (segStart idx t) (t + 1), (if idx j = idx t then val j else 0)
      = ∑ j ∈ Finset.Ico (segStart idx t) (t + 1), val j := by
    apply Finset.sum_congr rfl
    intro j hj
    rw [Finset.mem_Ico] at hj
    rw [if_pos (segStart_mem idx t j hj.1 (by omega))]
  rw [h1, h2, zero_add]

theorem C7_segreduce_warp_scan_witness : segreduce_warp exIdx exVal 4 = 2 := by
  have h := C7_segreduce_warp_scan exIdx exVal (by decide) 4 (by norm_num)
  rw [h]
  decide

/-- C1: for a row-sorted matrix (with genuine, non-negative row indices) each
of the four multiply operations leaves y[r] equal to its previous value plus
the serial sum of val * x[col] over row r's entries, whatever the planner's
split of the entries across warps (any device limits U₁, U₂ ≥ 1). The worked
3x3 example of the spec is checked in the witness. -/
theorem C1_row_sum_invariant (U₁ U₂ : Nat) (m : COOMatrix) (x y : Int → Int)
    (hU₁ : 1 ≤ U₁) (hU₂ : 1 ≤ U₂) (hsort : m.RowSorted) (hnn : m.RowsNonneg) :
    ∀ r, spmv_coo_flat U₁ m x y r = y r + rowSum m x r ∧
      spmv_coo_flat_tex U₁ m x y r = y r + rowSum m x r ∧
      spmv_coo_flat_atomic U₂ m x y r = y r + rowSum m x r ∧
      spmv_coo_flat_atomic_tex U₂ m x y r = y r + rowSum m x r := by
  intro r
  exact ⟨flat_core false U₁ m x y hU₁ hsort hnn r,
    flat_core true U₁ m x y hU₁ hsort hnn r,
    atomic_core false U₂ m x y hU₂ hsort r,
    atomic_core true U₂ m x y hU₂ hsort r⟩

theorem C1_row_sum_invariant_witness :
    spmv_coo_flat 7 exM exX exY 0 = 5 ∧ spmv_coo_flat 7 exM exX exY 1 = 4 ∧
    spmv_coo_flat 7 exM exX exY 2 = 6 ∧ spmv_coo_flat_atomic 9 exM exX exY 2 = 6 := by
  have h := C1_row_sum_invariant 7 9 exM exX exY (by norm_num) (by norm_num)
    (by decide) (by decide)
  refine ⟨?_, ?_, ?_, ?_⟩
  · rw [(h 0).1]
    decide
  · rw [(h 1).1]
    decide
  · rw [(h 2).1]
    decide
  · rw [(h 2).2.2.1]
    decide

/-- C2: the textured variants equal their untextured counterparts outright
(fetch_x returns x[col] under either cache policy), and for a row-sorted matrix
with genuine row indices the deferred and the atomic multiply agree as
functions, for any device limits; with exact (integer) arithmetic in place of
floats this is equality, i.e. equivalence up to summation order. -/
theorem C2_four_ops_equivalent (U₁ U₂ : Nat) (m : COOMatrix) (x y : Int → Int)
    (hU₁ : 1 ≤ U₁) (hU₂ : 1 ≤ U₂) (hsort : m.RowSorted) (hnn : m.RowsNonneg) :
    spmv_coo_flat_tex U₁ m x y = spmv_coo_flat U₁ m x y ∧
    spmv_coo_flat_atomic_tex U₂ m x y = spmv_coo_flat_atomic U₂ m x y ∧
    spmv_coo_flat U₁ m x y = spmv_coo_flat_atomic U₂ m x y := by
  refine ⟨rfl, rfl, ?_⟩
  funext r
  have h1 := flat_core false U₁ m x y hU₁ hsort hnn r
  have h2 := atomic_core false U₂ m x y hU₂ hsort r
  show __spmv_coo_flat false U₁ m x y r = __spmv_coo_flat_atomic false U₂ m x y r
  rw [h1, h2]

theorem C2_four_ops_equivalent_witness :
    spmv_coo_flat_tex 7 exM exX exY = spmv_coo_flat 7 exM exX exY ∧
    spmv_coo_flat 7 exM exX exY = spmv_coo_flat_atomic 9 exM exX exY := by
  have h := C2_four_ops_equivalent 7 9 exM exX exY (by norm_num) (by norm_num)
    (by decide) (by decide)
  exact ⟨h.1, h.2.2⟩

/-- C3: on the parallel path (at least one full warp of entries, row-sorted,
genuine row indices), the deferred multiply equals applying the event list
flatEvents to y, and there is a list of pairwise disjoint covers, one per
event, whose union is all entry positions, with each event's value the sum of
val * x[col] over its cover and each cover row-constant at the event's row:
every entry contributes to exactly one accumulation event into y (direct
level-1 write, carry resolved by the level-2 reduction, or tail handler), none
double-counted, none dropped. -/
theorem C3_exactly_one_event (U : Nat) (m : COOMatrix) (x y : Int → Int)
    (hU : 1 ≤ U) (hsort : m.RowSorted) (hnn : m.RowsNonneg)
    (hn : 32 ≤ m.num_entries) :
    (∀ useCache, __spmv_coo_flat useCache U m x y = applyWrites y (flatEvents U m x)) ∧
    ∃ C, Covers m.rowA (prodAt m.colA m.valA x) (flatEvents U m x) C
      (Finset.range m.num_entries) := by
  constructor
  · intro uc
    refine __spmv_coo_flat_eq_applyWrites uc U m x y (by omega) ?_
    show ¬ m.num_entries < 32
    omega
  · exact flatEvents_covers U m x hU hsort hnn hn

theorem C3_exactly_one_event_witness :
    __spmv_coo_flat false 5 exM32 exX exY = applyWrites exY (flatEvents 5 exM32 exX) ∧
    ∃ C, Covers exM32.rowA (prodAt exM32.colA exM32.valA exX) (flatEvents 5 exM32 exX) C
      (Finset.range exM32.num_entries) := by
  have h := C3_exactly_one_event 5 exM32 exX exY (by norm_num) (by decide) (by decide)
    (by decide)
  exact ⟨h.1 false, h.2⟩

/-- C10: in the level-2 reduce-update kernel, a lane t of a block beyond the
valid count cnt (in particular the trailing lanes of the final partial block,
where cnt = num_warps mod 512) reads the sentinel row -1 and value 0; and no
write of the kernel comes from a padding lane: every accumulation event uses a
row drawn from temp_rows[0 .. num_warps), which (the level-1 rows being
genuine, non-negative indices) is never the sentinel -1. -/
theorem C10_padding_never_writes (nw : Nat) (trows tvals : Nat → Int)
    (hnn : ∀ i, i < nw → 0 ≤ trows i) :
    (∀ base cnt t, cnt ≤ t →
      padRows trows base cnt t = -1 ∧ padVals tvals base cnt t = 0) ∧
    (∀ ev ∈ reduceEvents nw trows tvals,
      (∃ i, i < nw ∧ ev.1 = trows i) ∧ ev.1 ≠ -1) := by
  constructor
  · intro base cnt t ht
    constructor
    · rw [padRows, if_neg (by omega : ¬ t < cnt)]
    · rw [padVals, if_neg (by omega : ¬ t < cnt)]
  · intro ev hev
    have hmem : ∃ base cnt, base + cnt ≤ nw ∧ ev ∈ reduceChunkEvents trows tvals base cnt := by
      rw [reduceEvents, List.mem_append] at hev
      rcases hev with hev | hev
      · rw [List.mem_flatMap] at hev
        obtain ⟨c, hc, hev⟩ := hev
        rw [List.mem_range] at hc
        refine ⟨c * 512, 512, ?_, hev⟩
        have h1 : (c + 1) * 512 ≤ ((nw - nw % 512) / 512) * 512 :=
          Nat.mul_le_mul_right _ (by omega)
        have h2 : ((nw - nw % 512) / 512) * 512 = nw - nw % 512 := by omega
        have h3 : (c + 1) * 512 = c * 512 + 512 := by ring
        omega
      · by_cases hl : nw - nw % 512 < nw
        · rw [if_pos hl] at hev
          exact ⟨nw - nw % 512, nw % 512, by omega, hev⟩
        · rw [if_neg hl] at hev
          cases hev
    obtain ⟨base, cnt, hbc, hev⟩ := hmem
    rw [reduceChunkEvents, List.mem_filterMap] at hev
    obtain ⟨t, htm, hsome⟩ := hev
    by_cases hg : t < cnt ∧ padRows trows base cnt t ≠ padRows trows base cnt (t + 1)
    · rw [if_pos hg] at hsome
      have hPe : (padRows trows base cnt t,
          segreduce_block (padRows trows base cnt) (padVals tvals base cnt) t) = ev :=
        Option.some_inj.mp hsome
      have hrow : ev.1 = trows (base + t) := by
        rw [← hPe]
        show padRows trows base cnt t = trows (base + t)
        rw [padRows, if_pos hg.1]
      refine ⟨⟨base + t, by omega, hrow⟩, ?_⟩
      rw [hrow]
      have := hnn (base + t) (by omega)
      omega
    · rw [if_neg hg] at hsome
      cases hsome

set_option maxRecDepth 16384 in
theorem C10_padding_never_writes_witness :
    (padRows exTR 0 1 5 = -1 ∧ padVals exTV 0 1 5 = 0) ∧
    ((∃ i, i < 1 ∧ (((0 : Int), (7 : Int)) : Int × Int).1 = exTR i) ∧
      (((0 : Int), (7 : Int)) : Int × Int).1 ≠ -1) := by
  have h := C10_padding_never_writes 1 exTR exTV (by decide)
  refine ⟨h.1 0 1 5 (by norm_num), ?_⟩
  have hm : (((0 : Int), (7 : Int)) : Int × Int) ∈ reduceEvents 1 exTR exTV := by decide
  exact h.2 _ hm

/-- C9 (counterexample to "selectable as a policy fallback"): the choice
between the two level-2 policies in __spmv_coo_flat is the compile-time
constant host_method = false, so the scatter-update pass is never selected —
there is no run-time selection and no carry-buffer-size criterion.  Even in
the most favourable case the spec describes, a carry buffer as small as
possible relative to the group width (one active warp, as for 32 entries and
U = 1), the policy constant is still false. -/
theorem C9_policy_hardcoded :
    host_method = false ∧ (flatPlan 32 1).active_warps = 1 := by
  exact ⟨rfl, by decide⟩

/-- C9 (amended): host_method is hardcoded to false, so the scatter-update
pass is dead code rather than a selectable fallback; but the branch that would
run it — host-compressing the carry buffer temp_rows/temp_vals and then
scatter-updating the compressed list into y — produces the same y as the
reduce-update kernel that actually runs, for a sorted carry buffer with
genuine (non-negative) rows. -/
theorem C9_scatter_equals_reduce (nw : Nat) (trows tvals : Nat → Int)
    (hmon : ∀ b, b < nw → ∀ a, a ≤ b → trows a ≤ trows b)
    (hnn : ∀ a, a < nw → 0 ≤ trows a) (y : Int → Int) :
    host_method = false ∧
    spmv_coo_scatter_update_kernel
      (hostCompress ((List.range nw).map (fun i => (trows i, tvals i)))).length
      (fun i => ((hostCompress ((List.range nw).map (fun i => (trows i, tvals i)))).getD i
        ((0 : Int), (0 : Int))).1)
      (fun i => ((hostCompress ((List.range nw).map (fun i => (trows i, tvals i)))).getD i
        ((0 : Int), (0 : Int))).2)
      y
      = spmv_coo_reduce_update_kernel nw trows tvals y := by
  refine ⟨rfl, ?_⟩
  have hscatter : ∀ L : List (Int × Int),
      (List.range L.length).map
        (fun i => ((L.getD i ((0 : Int), (0 : Int))).1, (L.getD i ((0 : Int), (0 : Int))).2))
        = L := by
    intro L
    exact list_eq_map_range_getD L ((0 : Int), (0 : Int))
  funext r
  unfold spmv_coo_scatter_update_kernel spmv_coo_reduce_update_kernel
  rw [hscatter (hostCompress ((List.range nw).map (fun i => (trows i, tvals i))))]
  rw [applyWrites_eq, applyWrites_eq, hostCompress_sum, sumAt_map_range]
  rw [reduce_sumAt nw trows tvals (fun a b hab hb => hmon b hb a hab) hnn r]

theorem C9_scatter_equals_reduce_witness :
    host_method = false ∧
    spmv_coo_scatter_update_kernel
      (hostCompress ((List.range 1).map (fun i => (exTR i, exTV i)))).length
      (fun i => ((hostCompress ((List.range 1).map (fun i => (exTR i, exTV i)))).getD i
        ((0 : Int), (0 : Int))).1)
      (fun i => ((hostCompress ((List.range 1).map (fun i => (exTR i, exTV i)))).getD i
        ((0 : Int), (0 : Int))).2)
      exY
      = spmv_coo_reduce_update_kernel 1 exTR exTV exY :=
  C9_scatter_equals_reduce 1 exTR exTV (by decide) (by decide) exY

/-- C4: in the atomic kernel, for every active warp w, (i) any accumulation
whose row equals the first row of the warp's interval (the rows that may span
an inter-warp boundary) is performed with atomicAdd; (ii) the warp's final
carry (temp_rows/temp_vals value) is its last accumulation and is performed
with atomicAdd; (iii) a plain (non-atomic) add only touches a row strictly
after the interval's first row and at most the interval's last row, i.e. a row
interior to the warp's interval; consequently (iv) for row-sorted input no two
distinct warps perform a plain add into the same element of y. -/
theorem C4_atomic_add_discipline (U : Nat) (m : COOMatrix) (x : Int → Int)
    (isz tl aw : Nat)
    (hisz : isz = (flatPlan m.num_entries U).interval_size)
    (htl : tl = (flatPlan m.num_entries U).tail)
    (haw : aw = (flatPlan m.num_entries U).active_warps)
    (hU : 1 ≤ U) (hsort : m.RowSorted) (hn : 32 ≤ m.num_entries) :
    ∀ w, w < aw →
      (∀ ev ∈ atomicWarpEvents m.rowA m.colA m.valA x isz tl w,
        ev.row = m.rowA (w * isz) → ev.viaAtomic = true) ∧
      (∃ l, atomicWarpEvents m.rowA m.colA m.valA x isz tl w
        = l ++ [⟨temp_rows m.rowA m.colA m.valA x isz tl w,
                temp_vals m.rowA m.colA m.valA x isz tl w, true⟩]) ∧
      (∀ ev ∈ atomicWarpEvents m.rowA m.colA m.valA x isz tl w,
        ev.viaAtomic = false →
          m.rowA (w * isz) < ev.row ∧ ev.row ≤ m.rowA (min ((w + 1) * isz) tl - 1)) ∧
      (∀ w', w' < aw → w ≠ w' →
        ∀ ev ∈ atomicWarpEvents m.rowA m.colA m.valA x isz tl w,
        ∀ ev' ∈ atomicWarpEvents m.rowA m.colA m.valA x isz tl w',
          ev.viaAtomic = false → ev'.viaAtomic = false → ev.row ≠ ev'.row) := by
  subst hisz htl haw
  obtain ⟨hf1, hf2, hf3, hf4, hf5, hf6, hf7, hf8⟩ :=
    flatPlan_facts m.num_entries U (by omega) hU
  have hmon : ∀ a b', a ≤ b' → b' < m.num_entries → m.rowA a ≤ m.rowA b' :=
    fun a b' hab hb' => hsort b' hb' a hab
  set isz := (flatPlan m.num_entries U).interval_size with hisz
  set tl := (flatPlan m.num_entries U).tail with htl
  set aw := (flatPlan m.num_entries U).active_warps with haw
  have hweq : ∀ w, w < aw → warpRun m.rowA m.colA m.valA x isz tl w
      = (carrySpec m.rowA m.colA m.valA x (w * isz) (min ((w + 1) * isz) tl),
         termList m.rowA
           (fun p => (m.rowA p, G m.rowA (prodAt m.colA m.valA x) (w * isz) p))
           (w * isz) (min ((w + 1) * isz) tl)) := by
    intro w hw
    exact warpRun_spec m.rowA m.colA m.valA x m.num_entries isz tl w hmon hf1 hf3
      (hf7 w hw) hf4
  have hplain : ∀ w, w < aw →
      ∀ ev ∈ atomicWarpEvents m.rowA m.colA m.valA x isz tl w,
      ev.viaAtomic = false →
        m.rowA (w * isz) < ev.row ∧ ev.row ≤ m.rowA (min ((w + 1) * isz) tl - 1) := by
    intro w hw ev hev hat
    rw [atomicWarpEvents, List.mem_append] at hev
    rcases hev with hev | hev
    · rw [List.mem_map] at hev
      obtain ⟨e0, he0, heq⟩ := hev
      by_cases hfirst : e0.1 = m.rowA (w * isz)
      · exfalso
        rw [← heq] at hat
        have hat' : (if e0.1 = m.rowA (w * isz) then true else false) = false := hat
        rw [if_pos hfirst] at hat'
        cases hat'
      · have he0' : e0 ∈ termList m.rowA
            (fun p => (m.rowA p, G m.rowA (prodAt m.colA m.valA x) (w * isz) p))
            (w * isz) (min ((w + 1) * isz) tl) := by
          rw [hweq w hw] at he0
          exact he0
        obtain ⟨p, hbp, hpe, hne, hpe0⟩ := mem_termList _ _ _ _ _ he0'
        have hrow : ev.row = m.rowA p := by
          rw [← heq]
          show e0.1 = m.rowA p
          rw [hpe0]
        have h1 : w * isz < (w + 1) * isz := by
          rw [Nat.succ_mul]
          omega
        have hbe : w * isz < min ((w + 1) * isz) tl := lt_min h1 (hf7 w hw)
        have hele : min ((w + 1) * isz) tl ≤ m.num_entries :=
          le_trans (min_le_right _ _) hf4
        constructor
        · rw [hrow]
          have hle : m.rowA (w * isz) ≤ m.rowA p := hmon _ _ hbp (by omega)
          have hne2 : m.rowA p ≠ m.rowA (w * isz) := by
            intro hc
            apply hfirst
            rw [hpe0]
            exact hc
          omega
        · rw [hrow]
          exact hmon p (min ((w + 1) * isz) tl - 1) (by omega) (by omega)
    · exfalso
      rw [List.mem_singleton] at hev
      rw [hev] at hat
      simp at hat
  intro w hw
  refine ⟨?_, ?_, hplain w hw, ?_⟩
  · intro ev hev hrow
    rw [atomicWarpEvents, List.mem_append] at hev
    rcases hev with hev | hev
    · rw [List.mem_map] at hev
      obtain ⟨e0, he0, heq⟩ := hev
      rw [← heq]
      show (if e0.1 = m.rowA (w * isz) then true else false) = true
      rw [← heq] at hrow
      have hrow' : e0.1 = m.rowA (w * isz) := hrow
      rw [if_pos hrow']
    · rw [List.mem_singleton] at hev
      rw [hev]
  · exact ⟨_, rfl⟩
  · intro w' hw' hww ev hev ev' hev' hat hat'
    obtain ⟨hlo, hhi⟩ := hplain w hw ev hev hat
    obtain ⟨hlo', hhi'⟩ := hplain w' hw' ev' hev' hat'
    rcases Nat.lt_or_ge w w' with hlt | hge
    · have h1 : min ((w + 1) * isz) tl - 1 ≤ w' * isz := by
        have h2 : (w + 1) * isz ≤ w' * isz := Nat.mul_le_mul_right _ (by omega)
        have h3 := min_le_left ((w + 1) * isz) tl
        omega
      have h2 : m.rowA (min ((w + 1) * isz) tl - 1) ≤ m.rowA (w' * isz) :=
        hmon _ _ h1 (by have := hf7 w' hw'; omega)
      omega
    · have hgt : w' < w := by omega
      have h1 : min ((w' + 1) * isz) tl - 1 ≤ w * isz := by
        have h2 : (w' + 1) * isz ≤ w * isz := Nat.mul_le_mul_right _ (by omega)
        have h3 := min_le_left ((w' + 1) * isz) tl
        omega
      have h2 : m.rowA (min ((w' + 1) * isz) tl - 1) ≤ m.rowA (w * isz) :=
        hmon _ _ h1 (by have := hf7 w hw; omega)
      omega

theorem C4_atomic_add_discipline_witness :
    ∃ l, atomicWarpEvents exM32.rowA exM32.colA exM32.valA exX
        (flatPlan exM32.num_entries 5).interval_size
        (flatPlan exM32.num_entries 5).tail 0
      = l ++ [⟨temp_rows exM32.rowA exM32.colA exM32.valA exX
                (flatPlan exM32.num_entries 5).interval_size
                (flatPlan exM32.num_entries 5).tail 0,
              temp_vals exM32.rowA exM32.colA exM32.valA exX
                (flatPlan exM32.num_entries 5).interval_size
                (flatPlan exM32.num_entries 5).tail 0, true⟩] := by
  have h := C4_atomic_add_discipline 5 exM32 exX _ _ _ rfl rfl rfl (by norm_num)
    (by decide) (by decide) 0 (by decide)
  exact h.2.1

end CuspCoo
